import Mathlib

/-!
# Image relocation in kots: bundle addressing, reference parsing, save and push

A shallow embedding of `pkg/image/builder.go` and `pkg/upstream/push_images.go`.
Go strings are modelled as `List Char`; every separator the code looks for
(`/`, `:`, `@`, newline) is ASCII, so splitting bytes and splitting characters agree.
-/

namespace Kots

abbrev Str := List Char

deriving instance DecidableEq for Except

/-! ## Go standard library: `strings`, `path/filepath` (Unix) -/

/-- Go `strings.Split(s, sep)` for a one-character separator. -/
def stringsSplit (s : Str) (sep : Char) : List Str :=
  s.splitOn sep

/-- Go `strings.Join(elems, "/")`. -/
def stringsJoin (elems : List Str) : Str :=
  ['/'].intercalate elems

/-- One path element of `filepath.Clean`, applied to the elements written so far
(`out`, most recent first). An empty element and `.` are dropped; `..` removes the
last real element when there is one (`out.w > dotdot`), is kept on a relative path
that cannot backtrack, and is dropped at the root; a real element is appended. -/
def cleanStep (rooted : Bool) (out : List Str) (c : Str) : List Str :=
  if c = [] then out
  else if c = ['.'] then out
  else if c = ['.', '.'] then
    match out with
    | [] => if rooted then [] else [['.', '.']]
    | top :: rest =>
      if top = ['.', '.'] then (if rooted then out else ['.', '.'] :: out) else rest
  else c :: out

/-- Go `filepath.Clean` on Unix (separator `/`, no volume name), element by element. -/
def Clean (path : Str) : Str :=
  if path = [] then ['.']
  else
    let rooted : Bool := path.head? = some '/'
    let out := ((path.splitOn '/').foldl (cleanStep rooted) []).reverse
    if rooted then '/' :: stringsJoin out
    else if out = [] then ['.']
    else stringsJoin out

/-- Go `filepath.Join`: leading empty elements are skipped, the rest is joined with
the separator and cleaned; all elements empty gives the empty string. -/
def filepathJoin : List Str → Str
  | [] => []
  | e :: rest => if e = [] then filepathJoin rest else Clean (stringsJoin (e :: rest))

/-! ## `pkg/image/builder.go`: data model -/

structure ImageRef where
  Domain : Str
  Name : Str
  Tag : Str
  Digest : Str
  deriving DecidableEq, Repr

/-- The method `(ref *ImageRef) pathInBundle(formatPrefix string)`. -/
def ImageRef.pathInBundle (ref : ImageRef) (formatPrefix : Str) : Str :=
  let path := [formatPrefix, ref.Name]
  let path := if ref.Tag ≠ [] then path ++ [ref.Tag] else path
  let path := if ref.Digest ≠ [] then path ++ stringsSplit ref.Digest ':' else path
  filepathJoin path

/-! ## The `docker/distribution/reference` package, as used by `imageRefImage`

`reference.ParseAnyReference` decides by anchored regular expressions; each is
modelled by a matcher of whole strings, and the captures of `ReferenceRegexp` by
the only split of the string that its character classes allow. -/

/-- The concrete types behind the interface `reference.Reference`. -/
inductive Reference where
  | digestReference (digest : Str)
  | repository (domain path : Str)
  | taggedReference (domain path tag : Str)
  | canonicalReference (domain path digest : Str)
  | reference (domain path tag digest : Str)
  deriving DecidableEq, Repr

/-- The type assertion `parsed.(reference.Named)`, giving `(Domain(named), named.Name())`.
`Name()` is the path when the domain is empty, and `domain + "/" + path` otherwise. -/
def Reference.named? : Reference → Option (Str × Str)
  | .digestReference _ => none
  | .repository d p | .taggedReference d p _ | .canonicalReference d p _ | .reference d p _ _ =>
    some (d, if d = [] then p else d ++ '/' :: p)

/-- The type assertion `parsed.(reference.Tagged)`, giving `tagged.Tag()`. -/
def Reference.tagged? : Reference → Option Str
  | .taggedReference _ _ t | .reference _ _ t _ => some t
  | _ => none

/-- The type assertion `parsed.(reference.Canonical)`, giving `can.Digest().String()`. -/
def Reference.canonical? : Reference → Option Str
  | .canonicalReference _ _ d | .reference _ _ _ d => some d
  | _ => none

/-- The character class `[a-z0-9]`. -/
def isLowerAlnum (c : Char) : Bool := c.isLower || c.isDigit

/-- The character class `\w`. -/
def isWord (c : Char) : Bool := c.isAlphanum || c = '_'

/-- The character class `[a-f0-9]`. -/
def isLowerHex (c : Char) : Bool := c.isDigit || ('a' ≤ c && c ≤ 'f')

/-- The character class `[[:xdigit:]]`. -/
def isXDigit (c : Char) : Bool := isLowerHex c || ('A' ≤ c && c ≤ 'F')

/-- States of the matcher of a name component: after an alphanumeric character,
after one underscore, after dashes, or where an alphanumeric character must follow. -/
inductive CompState where
  | alnum | underscore | dashes | need
  deriving DecidableEq, Repr

/-- One character of `[a-z0-9]+(?:(?:[._]|__|[-]*)[a-z0-9]+)*`. -/
def compStep (st : Option CompState) (c : Char) : Option CompState :=
  match st with
  | none => none
  | some .alnum =>
    if isLowerAlnum c then some .alnum
    else if c = '.' then some .need
    else if c = '_' then some .underscore
    else if c = '-' then some .dashes
    else none
  | some .underscore =>
    if isLowerAlnum c then some .alnum
    else if c = '_' then some .need
    else none
  | some .dashes =>
    if isLowerAlnum c then some .alnum
    else if c = '-' then some .dashes
    else none
  | some .need => if isLowerAlnum c then some .alnum else none

/-- The anchored `nameComponentRegexp`. -/
def matchNameComponent (s : Str) : Bool :=
  s.foldl compStep (some .need) = some .alnum

/-- The anchored `domainComponentRegexp`: `[a-zA-Z0-9]|[a-zA-Z0-9][a-zA-Z0-9-]*[a-zA-Z0-9]`. -/
def matchDomainComponent (s : Str) : Bool :=
  match s with
  | [] => false
  | c :: cs =>
    c.isAlphanum && cs.all (fun x => x.isAlphanum || x = '-')
      && (match (c :: cs).getLast? with
          | some l => l.isAlphanum
          | none => false)

/-- The anchored `DomainRegexp`: domain components separated by dots, then an
optional `:` and a port of digits. -/
def matchDomain (s : Str) : Bool :=
  match s.splitOn ':' with
  | [host] => (host.splitOn '.').all matchDomainComponent
  | [host, port] =>
    (host.splitOn '.').all matchDomainComponent && port ≠ [] && port.all Char.isDigit
  | _ => false

/-- The anchored `TagRegexp`: `[\w][\w.-]{0,127}`. -/
def matchTag (s : Str) : Bool :=
  match s with
  | [] => false
  | c :: cs => isWord c && cs.all (fun x => isWord x || x = '.' || x = '-') && cs.length ≤ 127

/-- One character of the algorithm part of `DigestRegexp`,
`[A-Za-z][A-Za-z0-9]*(?:[-_+.][A-Za-z][A-Za-z0-9]*)*`; the state says whether a
letter must come next. -/
def algStep (st : Option Bool) (c : Char) : Option Bool :=
  match st with
  | none => none
  | some true => if c.isAlpha then some false else none
  | some false =>
    if c.isAlphanum then some false
    else if c = '-' || c = '_' || c = '+' || c = '.' then some true
    else none

/-- The anchored `DigestRegexp` of the reference package: an algorithm, a colon and
at least 32 hexadecimal digits. -/
def matchDigest (s : Str) : Bool :=
  match s.splitOn ':' with
  | [alg, hex] => alg.foldl algStep (some true) = some false && 32 ≤ hex.length && hex.all isXDigit
  | _ => false

/-- Size in bytes of the hash of a digest algorithm that `go-digest` has available. -/
def algorithmSize (alg : Str) : Option Nat :=
  if alg = ['s', 'h', 'a', '2', '5', '6'] then some 32
  else if alg = ['s', 'h', 'a', '3', '8', '4'] then some 48
  else if alg = ['s', 'h', 'a', '5', '1', '2'] then some 64
  else none

/-- Does `digest.Parse` of `go-digest` accept the string: the text before the first
colon is an available algorithm and the rest is its size in lower-case hex. -/
def digestParse (s : Str) : Bool :=
  match s.span (· ≠ ':') with
  | (_, []) => false
  | (alg, _ :: encoded) =>
    alg ≠ [] && encoded ≠ [] &&
      (match algorithmSize alg with
       | none => false
       | some size => size * 2 = encoded.length && encoded.all isLowerHex)

/-- The anchored `IdentifierRegexp`: `[a-f0-9]{64}`. -/
def matchIdentifier (s : Str) : Bool :=
  s.length = 64 && s.all isLowerHex

/-- The captures `(domain, path)` of `anchoredNameRegexp` on a name: the text before
the first slash is the domain when it matches `DomainRegexp` and the rest is a path
of name components; otherwise the whole name must be such a path. -/
def matchName (name : Str) : Option (Str × Str) :=
  match name.splitOn '/' with
  | [] => none
  | c :: rest =>
    if rest ≠ [] && matchDomain c && rest.all matchNameComponent then
      some (c, stringsJoin rest)
    else if (c :: rest).all matchNameComponent then some ([], name)
    else none

/-- Splits `name[:tag]` at the colon after the last slash, if there is one. -/
def splitTag (s : Str) : Str × Option Str :=
  match (s.reverse.span (· ≠ ':')) with
  | (_, []) => (s, none)
  | (tagRev, _ :: nameRev) =>
    if '/' ∈ tagRev then (s, none) else (nameRev.reverse, some tagRev.reverse)

/-- Splits `name[:tag][@digest]` at the first `@`, if there is one. -/
def splitDigest (s : Str) : Str × Option Str :=
  match s.span (· ≠ '@') with
  | (pre, []) => (pre, none)
  | (pre, _ :: d) => (pre, some d)

/-- The captures `(name, tag, digest)` of `ReferenceRegexp`,
`^(Name)(?::(Tag))?(?:@(Digest))?$`; an absent group is the empty string. -/
def matchReference (s : Str) : Option (Str × Str × Str) :=
  let (pre, digest?) := splitDigest s
  let (name, tag?) := splitTag pre
  let digestOk : Bool := match digest? with
    | none => true
    | some d => matchDigest d
  let tagOk : Bool := match tag? with
    | none => true
    | some t => matchTag t
  if digestOk && tagOk && (matchName name).isSome then
    some (name, tag?.getD [], digest?.getD [])
  else none

/-- The struct `reference` before `getBestReferenceType` picks its narrowest type. -/
structure RawReference where
  domain : Str
  path : Str
  tag : Str
  digest : Str
  deriving DecidableEq, Repr

/-- Function `getBestReferenceType` of the reference package. -/
def getBestReferenceType (ref : RawReference) : Option Reference :=
  if (if ref.domain = [] then ref.path else ref.domain ++ '/' :: ref.path) = [] then
    if ref.digest ≠ [] then some (.digestReference ref.digest) else none
  else if ref.tag = [] then
    if ref.digest ≠ [] then some (.canonicalReference ref.domain ref.path ref.digest)
    else some (.repository ref.domain ref.path)
  else if ref.digest = [] then some (.taggedReference ref.domain ref.path ref.tag)
  else some (.reference ref.domain ref.path ref.tag ref.digest)

/-- Function `reference.Parse`. -/
def Parse (s : Str) : Except String Reference :=
  match matchReference s with
  | none => .error "invalid reference format"
  | some (name, tag, digest) =>
    if name.length > 255 then .error "repository name must not be more than 255 characters"
    else
      match matchName name with
      | none => .error "invalid reference format"
      | some (domain, path) =>
        if digest ≠ [] ∧ digestParse digest = false then .error "invalid digest"
        else
          match getBestReferenceType ⟨domain, path, tag, digest⟩ with
          | none => .error "repository name must have at least one component"
          | some r => .ok r

def defaultDomain : Str := ['d', 'o', 'c', 'k', 'e', 'r', '.', 'i', 'o']

def legacyDefaultDomain : Str := ['i', 'n', 'd', 'e', 'x', '.'] ++ defaultDomain

def officialRepoName : Str := ['l', 'i', 'b', 'r', 'a', 'r', 'y']

def localhost : Str := ['l', 'o', 'c', 'a', 'l', 'h', 'o', 's', 't']

/-- Function `splitDockerDomain` of the reference package. -/
def splitDockerDomain (name : Str) : Str × Str :=
  let (domain, remainder) : Str × Str :=
    match name.span (· ≠ '/') with
    | (_, []) => (defaultDomain, name)
    | (first, _ :: rest) =>
      if ¬ ('.' ∈ first ∨ ':' ∈ first) ∧ first ≠ localhost then (defaultDomain, name)
      else (first, rest)
  let domain := if domain = legacyDefaultDomain then defaultDomain else domain
  let remainder :=
    if domain = defaultDomain ∧ '/' ∉ remainder then officialRepoName ++ '/' :: remainder
    else remainder
  (domain, remainder)

/-- Function `reference.ParseNormalizedNamed`; its result is always a named reference. -/
def ParseNormalizedNamed (s : Str) : Except String Reference :=
  if matchIdentifier s then
    .error "invalid repository name, cannot specify 64-byte hexadecimal strings"
  else
    let (domain, remainder) := splitDockerDomain s
    let remoteName := (remainder.span (· ≠ ':')).1
    if remoteName.any Char.isUpper then
      .error "invalid reference format: repository name must be lowercase"
    else
      match Parse (domain ++ '/' :: remainder) with
      | .error e => .error e
      | .ok ref =>
        if (Reference.named? ref).isSome then .ok ref else .error "reference has no name"

/-- Function `reference.ParseAnyReference`: an identifier, a full digest, or a
familiar name. -/
def ParseAnyReference (ref : Str) : Except String Reference :=
  if matchIdentifier ref then
    .ok (.digestReference (['s', 'h', 'a', '2', '5', '6', ':'] ++ ref))
  else if digestParse ref then .ok (.digestReference ref)
  else ParseNormalizedNamed ref

/-! ## `pkg/image/builder.go`: `imageRefImage` -/

def latest : Str := ['l', 'a', 't', 'e', 's', 't']

/-- The body of `imageRefImage` after the parse: the type switches on the parsed
reference, `Tagged` first, then `Canonical`, then the default tag. -/
def imageRefOfParsed (parsed : Reference) : Except String ImageRef :=
  match Reference.named? parsed with
  | none => .error "unsupported ref type"
  | some (domain, name) =>
    match Reference.tagged? parsed with
    | some tag => .ok ⟨domain, name, tag, []⟩
    | none =>
      match Reference.canonical? parsed with
      | some digest => .ok ⟨domain, name, [], digest⟩
      | none => .ok ⟨domain, name, latest, []⟩

/-- Function `imageRefImage`. -/
def imageRefImage (image : Str) : Except String ImageRef :=
  match ParseAnyReference image with
  | .error _ => .error "failed to parse image name"
  | .ok parsed => imageRefOfParsed parsed

/-! ## `pkg/image/builder.go`: the manifest scanner -/

structure k8sContainer where
  Image : Str
  deriving DecidableEq, Repr

structure k8sPodSpec where
  Containers : List k8sContainer
  deriving DecidableEq, Repr

structure k8sTemplate where
  Spec : k8sPodSpec
  deriving DecidableEq, Repr

structure k8sSpec where
  Template : k8sTemplate
  deriving DecidableEq, Repr

structure k8sYAML where
  Spec : k8sSpec
  deriving DecidableEq, Repr

/-- The decoder `yaml.Unmarshal(yamlDoc, parsed)` into a `k8sYAML`: an external
library, taken as a parameter. -/
abbrev Unmarshal := Str → Except String k8sYAML

/-- Go `bytes.Split(s, sep)` for a non-empty separator, scanning left to right:
`skip` counts the bytes of a separator just found that are still to be passed over,
`acc` holds the current piece in reverse. -/
def bytesSplitAux (sep : Str) : Nat → Str → Str → List Str
  | _, acc, [] => [acc.reverse]
  | skip + 1, acc, _ :: cs => bytesSplitAux sep skip acc cs
  | 0, acc, c :: cs =>
    if sep.isPrefixOf (c :: cs) then acc.reverse :: bytesSplitAux sep (sep.length - 1) [] cs
    else bytesSplitAux sep 0 (c :: acc) cs

/-- Go `bytes.Split(s, sep)` for a non-empty separator. -/
def bytesSplit (s sep : Str) : List Str :=
  bytesSplitAux sep 0 [] s

/-- The document delimiter of `listImagesInFile`, `"\n---\n"`. -/
def yamlDelimiter : Str := ['\n', '-', '-', '-', '\n']

/-- Function `listImagesInFile`. -/
def listImagesInFile (unmarshal : Unmarshal) (contents : Str) : List Str :=
  let yamlDocs := bytesSplit contents yamlDelimiter
  yamlDocs.foldl
    (fun images yamlDoc =>
      match unmarshal yamlDoc with
      | .error _ => images
      | .ok parsed => images ++ parsed.Spec.Template.Spec.Containers.map (·.Image))
    []

/-! ## `pkg/image/builder.go`: saving images -/

/-- Everything `saveOneImage` does outside the program once the archive name is known
(`os.MkdirAll`, the policy context, `alltransports.ParseImageName` of source and
destination, `copy.Image`), as a function of the images that `saveOneImage` was called
with before, the source string and the destination string. -/
abbrev SaveWorld := List Str → Str → Str → Except String Unit

def dockerArchive : Str := "docker-archive".toList

def dockerScheme : Str := "docker://".toList

/-- The archive name that `saveOneImage` computes for a parsed reference:
`filepath.Join(imagesDir, imageRef.pathInBundle("docker-archive"))`. -/
def archiveName (imagesDir : Str) (imageRef : ImageRef) : Str :=
  filepathJoin [imagesDir, imageRef.pathInBundle dockerArchive]

/-- Function `saveOneImage`; `before` lists the images of the earlier calls. -/
def saveOneImage (world : SaveWorld) (before : List Str) (imagesDir image : Str) :
    Except String Unit :=
  match imageRefImage image with
  | .error _ => .error "failed to parse image ref"
  | .ok imageRef =>
    let srcStr := dockerScheme ++ image
    let destStr := dockerArchive ++ ':' :: archiveName imagesDir imageRef
    match world before srcStr destStr with
    | .error _ => .error "failed to copy image"
    | .ok _ => .ok ()

/-- The state of one run of `SaveImages`: the keys of the map `savedImages`, and the
arguments of the calls of `saveOneImage` made so far, oldest first. -/
structure SaveState where
  savedImages : List Str
  calls : List Str
  deriving DecidableEq, Repr

/-- The loop of `extractImagesFromFile` over the images of one file. -/
def extractLoop (world : SaveWorld) (imagesDir : Str) :
    List Str → SaveState → Option String × SaveState
  | [], st => (none, st)
  | image :: rest, st =>
    if image ∈ st.savedImages then extractLoop world imagesDir rest st
    else
      match saveOneImage world st.calls imagesDir image with
      | .error _ => (some "failed to save image", { st with calls := st.calls ++ [image] })
      | .ok _ =>
        extractLoop world imagesDir rest
          { savedImages := image :: st.savedImages, calls := st.calls ++ [image] }

/-- Function `extractImagesFromFile`; the result is the returned error, if any, and
the state after the call. -/
def extractImagesFromFile (unmarshal : Unmarshal) (world : SaveWorld) (imagesDir fileData : Str)
    (st : SaveState) : Option String × SaveState :=
  extractLoop world imagesDir (listImagesInFile unmarshal fileData) st

/-- What `filepath.Walk` hands to the callback of `SaveImages` for one path, together
with what `ioutil.ReadFile` returns for a file. -/
inductive ManifestEntry where
  | walkError (err : String)
  | dir
  | file (contents : Except String Str)
  deriving Repr

/-- The callback of `SaveImages` over the paths of the walk, in walk order; the walk
stops at the first error the callback returns. -/
def saveWalk (unmarshal : Unmarshal) (world : SaveWorld) (imagesDir : Str) :
    List ManifestEntry → SaveState → Option String × SaveState
  | [], st => (none, st)
  | .walkError err :: _, st => (some err, st)
  | .dir :: rest, st => saveWalk unmarshal world imagesDir rest st
  | .file (.error err) :: _, st => (some err, st)
  | .file (.ok contents) :: rest, st =>
    match extractImagesFromFile unmarshal world imagesDir contents st with
    | (some _, st1) => (some "failed to extract images", st1)
    | (none, st1) => saveWalk unmarshal world imagesDir rest st1

/-- Function `SaveImages` over the paths that the walk of `upstreamDir` visits; the
result is the returned error, if any, and the final state of the run. -/
def SaveImages (unmarshal : Unmarshal) (world : SaveWorld) (imagesDir : Str)
    (upstreamDir : List ManifestEntry) : Option String × SaveState :=
  match saveWalk unmarshal world imagesDir upstreamDir ⟨[], []⟩ with
  | (some _, st) => (some "failed to walk upstream dir", st)
  | (none, st) => (none, st)

/-- The image strings that the scan of a manifest tree finds: those of every file
that can be read. -/
def scannedImages (unmarshal : Unmarshal) : List ManifestEntry → List Str
  | [] => []
  | .file (.ok contents) :: rest => listImagesInFile unmarshal contents ++ scannedImages unmarshal rest
  | _ :: rest => scannedImages unmarshal rest

/-! ## `pkg/image/builder.go` and `pkg/upstream/push_images.go`: pushing images -/

/-- The arguments of one call of `CopyFromFileToRegistry`. -/
structure PushCall where
  path : Str
  name : Str
  tag : Str
  digest : Str
  deriving DecidableEq, Repr

/-- The copy of `CopyFromFileToRegistry` outside the program (the policy context,
`alltransports.ParseImageName` of source and destination, `copy.Image`), as a function
of the calls made before, the source string and the destination string. -/
abbrev PushWorld := List PushCall → Str → Str → Except String Unit

/-- The destination that `CopyFromFileToRegistry` builds from its arguments:
`destStr := fmt.Sprintf("docker://%s:%s", name, tag)`. -/
def destStr (name tag _digest : Str) : Str :=
  dockerScheme ++ name ++ ':' :: tag

/-- Function `CopyFromFileToRegistry`; `before` lists the earlier calls. -/
def CopyFromFileToRegistry (world : PushWorld) (before : List PushCall)
    (path name tag digest : Str) : Except String Unit :=
  let srcStr := dockerArchive ++ ':' :: path
  match world before srcStr (destStr name tag digest) with
  | .error _ => .error "failed to copy image"
  | .ok _ => .ok ()

/-- Type `kustomizeimage.Image`. -/
structure Image where
  Name : Str
  NewName : Str
  NewTag : Str
  Digest : Str
  deriving DecidableEq, Repr

/-- Function `image.ImageInfoFromFile(registryHost, namespace, nameParts)`, whose source
is not part of this development: taken as a parameter. -/
abbrev ImageInfo := Str → Str → List Str → Except String Image

/-- The part of `os.FileInfo` that the code reads. -/
structure FileInfo where
  Name : Str
  IsDir : Bool
  deriving DecidableEq, Repr

/-- What `filepath.Walk` hands to the callback of `TagAndPushUpstreamImages`. -/
structure WalkEntry where
  path : Str
  info : Except String FileInfo

/-- The file system under the images directory: the result of `ioutil.ReadDir` of it
and, for every root, the paths that `filepath.Walk` visits, in walk order. -/
structure BundleFS where
  readDir : Str → Except String (List FileInfo)
  walk : Str → List WalkEntry

structure PushUpstreamImageOptions where
  ImagesDir : Str
  RegistryHost : Str
  RegistryNamespace : Str
  deriving DecidableEq, Repr

/-- The state of one run of `TagAndPushUpstreamImages`: the slice `images`, and the
calls of `CopyFromFileToRegistry` made so far, oldest first. -/
structure PushState where
  images : List Image
  pushes : List PushCall
  deriving DecidableEq, Repr

/-- The callback of `TagAndPushUpstreamImages` over the paths of one walk; the walk
stops at the first error the callback returns. -/
def pushWalk (imageInfo : ImageInfo) (world : PushWorld) (options : PushUpstreamImageOptions)
    (formatRoot : Str) : List WalkEntry → PushState → Option String × PushState
  | [], st => (none, st)
  | entry :: rest, st =>
    match entry.info with
    | .error err => (some err, st)
    | .ok info =>
      if info.IsDir then pushWalk imageInfo world options formatRoot rest st
      else
        let pathWithoutRoot := entry.path.drop (formatRoot.length + 1)
        match imageInfo options.RegistryHost options.RegistryNamespace
            (stringsSplit pathWithoutRoot '/') with
        | .error _ => (some "failed to decode image from path", st)
        | .ok rewrittenImage =>
          match CopyFromFileToRegistry world st.pushes entry.path rewrittenImage.NewName
              rewrittenImage.NewTag rewrittenImage.Digest with
          | .error _ =>
            (some "failed to push image",
              { st with pushes := st.pushes ++ [⟨entry.path, rewrittenImage.NewName,
                  rewrittenImage.NewTag, rewrittenImage.Digest⟩] })
          | .ok _ =>
            pushWalk imageInfo world options formatRoot rest
              { images := st.images ++ [rewrittenImage],
                pushes := st.pushes ++ [⟨entry.path, rewrittenImage.NewName,
                  rewrittenImage.NewTag, rewrittenImage.Digest⟩] }

/-- The loop of `TagAndPushUpstreamImages` over the entries of the images directory. -/
def pushFormatDirs (imageInfo : ImageInfo) (world : PushWorld) (fs : BundleFS)
    (options : PushUpstreamImageOptions) : List FileInfo → PushState → Option String × PushState
  | [], st => (none, st)
  | f :: rest, st =>
    if !f.IsDir then pushFormatDirs imageInfo world fs options rest st
    else
      let formatRoot := filepathJoin [options.ImagesDir, f.Name]
      match pushWalk imageInfo world options formatRoot (fs.walk formatRoot) st with
      | (some _, st1) => (some "failed to walk images dir", st1)
      | (none, st1) => pushFormatDirs imageInfo world fs options rest st1

/-- The two results of `TagAndPushUpstreamImages`, a slice that may be nil and an
error that may be nil, and the calls of `CopyFromFileToRegistry` it made. -/
structure PushResult where
  images : Option (List Image)
  err : Option String
  pushes : List PushCall
  deriving DecidableEq, Repr

/-- Method `(u *Upstream) TagAndPushUpstreamImages(options)`. The local `rootDir`,
the only use of the receiver, is never read and is left out. -/
def TagAndPushUpstreamImages (imageInfo : ImageInfo) (world : PushWorld) (fs : BundleFS)
    (options : PushUpstreamImageOptions) : PushResult :=
  match fs.readDir options.ImagesDir with
  | .error _ => ⟨none, some "failed to read images dir", []⟩
  | .ok formatDirs =>
    match pushFormatDirs imageInfo world fs options formatDirs ⟨[], []⟩ with
    | (some err, st) => ⟨none, some err, st.pushes⟩
    | (none, st) => ⟨some st.images, none, st.pushes⟩

/-! ## Runs of `SaveImages` -/

/-- How many of the calls of `saveOneImage` were given the image. -/
def callCount (image : Str) (calls : List Str) : Nat :=
  (calls.filter (fun c => decide (c = image))).length

/-- Every call of `saveOneImage` in the list succeeded, each after the ones before it. -/
def AllSaved (world : SaveWorld) (imagesDir : Str) (calls : List Str) : Prop :=
  ∀ pre image post, calls = pre ++ image :: post →
    saveOneImage world pre imagesDir image = .ok ()

/-- The state between two iterations: all calls so far succeeded, no image was given
twice, and the map holds exactly the images of the calls. -/
structure SaveInv (world : SaveWorld) (imagesDir : Str) (st : SaveState) : Prop where
  allSaved : AllSaved world imagesDir st.calls
  nodup : st.calls.Nodup
  saved : ∀ x, x ∈ st.savedImages ↔ x ∈ st.calls

/-- The state after a failed call of `saveOneImage`: the failed call is the last one,
the calls before it succeeded, and the map holds exactly their images. -/
def SaveFailed (world : SaveWorld) (imagesDir : Str) (st : SaveState) : Prop :=
  ∃ pre image, st.calls = pre ++ [image] ∧ AllSaved world imagesDir pre ∧
    (pre ++ [image]).Nodup ∧ (∀ x, x ∈ st.savedImages ↔ x ∈ pre) ∧
    saveOneImage world pre imagesDir image ≠ .ok ()

/-! ## Runs of `TagAndPushUpstreamImages` -/

/-- Every call of `CopyFromFileToRegistry` in the list succeeded, each after the ones
before it. -/
def AllPushed (world : PushWorld) (calls : List PushCall) : Prop :=
  ∀ pre c post, calls = pre ++ c :: post →
    CopyFromFileToRegistry world pre c.path c.name c.tag c.digest = .ok ()

/-- The state after a failed push: the failed call is the last one and the calls
before it succeeded. -/
def PushFailed (world : PushWorld) (st : PushState) : Prop :=
  ∃ pre c, st.pushes = pre ++ [c] ∧ AllPushed world pre ∧
    CopyFromFileToRegistry world pre c.path c.name c.tag c.digest ≠ .ok ()

/-! ## Well-formed references -/

/-- The invariant of the values that `getBestReferenceType` builds: a tagged reference
has a tag and a canonical reference has a digest. -/
def Reference.WF : Reference → Prop
  | .digestReference _ => True
  | .repository _ _ => True
  | .taggedReference _ _ t => t ≠ []
  | .canonicalReference _ _ d => d ≠ []
  | .reference _ _ t d => t ≠ [] ∧ d ≠ []

/-- A real path element for `filepath.Clean`: not empty, not `.`, not `..`, and
without a separator. -/
def RealElem (c : Str) : Prop :=
  c ≠ [] ∧ c ≠ ['.'] ∧ c ≠ ['.', '.'] ∧ '/' ∉ c

instance (c : Str) : Decidable (RealElem c) := by
  unfold RealElem
  infer_instance

/-- The archive path that `saveOneImage` derives from an image string, `imageRefImage`
followed by `pathInBundle` and the join with `imagesDir`; none when the image does not
parse. -/
def archivePath (imagesDir image : Str) : Option Str :=
  match imageRefImage image with
  | .error _ => none
  | .ok imageRef => some (archiveName imagesDir imageRef)

/-- What `imageRefImage` guarantees of its result: the name is made of real path
elements, and either there is no digest and the tag is a real path element, or there
is no tag and the digest is `algorithm:hex` with both parts real path elements. -/
def ImageRef.Valid (r : ImageRef) : Prop :=
  (∀ c ∈ r.Name.splitOn '/', RealElem c) ∧
    ((r.Digest = [] ∧ RealElem r.Tag) ∨
      (r.Tag = [] ∧ ∃ algorithm hex, r.Digest = algorithm ++ ':' :: hex ∧
        ':' ∉ algorithm ∧ ':' ∉ hex ∧ RealElem algorithm ∧ RealElem hex))

/-- The path elements that a format prefix contributes to `filepath.Join`. -/
def prefixElems (formatPrefix : Str) : List Str :=
  if formatPrefix = [] then [] else formatPrefix.splitOn '/'

/-- The images that one document contributes to `listImagesInFile`. -/
def imagesOfDoc (unmarshal : Unmarshal) (yamlDoc : Str) : List Str :=
  match unmarshal yamlDoc with
  | .error _ => []
  | .ok parsed => parsed.Spec.Template.Spec.Containers.map (·.Image)

/-! ## The regular files of a bundle -/

/-- The paths of the regular files among the entries of one walk, in walk order. -/
def walkFiles : List WalkEntry → List Str
  | [] => []
  | entry :: rest =>
    match entry.info with
    | .error _ => walkFiles rest
    | .ok info => if info.IsDir then walkFiles rest else entry.path :: walkFiles rest

/-- The regular files under the format subdirectories of the images directory, each
with the root of its walk: format directories in listing order, files in walk order;
an entry of the images directory that is not a directory contributes nothing. -/
def regularFiles (fs : BundleFS) (options : PushUpstreamImageOptions) :
    List FileInfo → List (Str × Str)
  | [] => []
  | f :: rest =>
    if f.IsDir then
      (walkFiles (fs.walk (filepathJoin [options.ImagesDir, f.Name]))).map
          (fun path => (filepathJoin [options.ImagesDir, f.Name], path))
        ++ regularFiles fs options rest
    else regularFiles fs options rest

/-- The image is the one that `ImageInfoFromFile` gives for the file, from the path of
the file below the root of its walk. -/
def Rewritten (imageInfo : ImageInfo) (options : PushUpstreamImageOptions)
    (file : Str × Str) (image : Image) : Prop :=
  imageInfo options.RegistryHost options.RegistryNamespace
    (stringsSplit (file.2.drop (file.1.length + 1)) '/') = .ok image

/-- A bundle in which the walk reports an error for the second archive. -/
def unreadableBundle : BundleFS where
  readDir := fun _ => .ok [⟨"docker-archive".toList, true⟩]
  walk := fun root =>
    [⟨root, .ok ⟨"docker-archive".toList, true⟩⟩,
     ⟨root ++ "/app/1".toList, .ok ⟨"1".toList, false⟩⟩,
     ⟨root ++ "/db/2".toList, .error "lstat: permission denied"⟩]

/-- A registry that accepts every push. -/
def pushSucceeds : PushWorld := fun _ _ _ => .ok ()

/-! ## Documents of a manifest file -/

/-- The documents of a file in the words of the specification: the file is cut into
lines, the lines are cut at every line that contains only `---`, and each run of lines
between two such lines is one document. -/
def documentsByLines (contents : Str) : List Str :=
  ((contents.splitOn '\n').splitOn ['-', '-', '-']).map (fun run => ['\n'].intercalate run)

/-- A decoder that shows which documents are decoded: every document decodes to one
container whose image is the text of the document. -/
def echoUnmarshal : Unmarshal := fun doc => .ok ⟨⟨⟨⟨[⟨doc⟩]⟩⟩⟩⟩

/-- A pod-shaped document whose only container has a name and no `image` field. -/
def noImageManifest : Str :=
  "spec:\n  template:\n    spec:\n      containers:\n      - name: web\n".toList

/-- A stand-in for `yaml.Unmarshal` that decodes `noImageManifest` as the library does,
to one container whose `Image` is the zero value, the empty string; every other
document is an error. -/
def manifestUnmarshal : Unmarshal := fun doc =>
  if doc = noImageManifest then .ok ⟨⟨⟨⟨[⟨[]⟩]⟩⟩⟩⟩ else .error "cannot unmarshal"

/-! ## A small bundle and a small manifest tree, used to run the code -/

/-- A stand-in for `image.ImageInfoFromFile`: the new name is host, namespace and the
first path element, the new tag is the last path element. -/
def sampleImageInfo : ImageInfo := fun host ns parts =>
  .ok ⟨parts.headD [], host ++ '/' :: ns ++ '/' :: parts.headD [], parts.getLastD [], []⟩

/-- A bundle with one format directory holding three archives, and a plain file. -/
def sampleBundle : BundleFS where
  readDir := fun _ => .ok [⟨"README".toList, false⟩, ⟨"docker-archive".toList, true⟩]
  walk := fun root =>
    [⟨root, .ok ⟨"docker-archive".toList, true⟩⟩,
     ⟨root ++ "/app/1".toList, .ok ⟨"1".toList, false⟩⟩,
     ⟨root ++ "/db/2".toList, .ok ⟨"2".toList, false⟩⟩,
     ⟨root ++ "/web/3".toList, .ok ⟨"3".toList, false⟩⟩]

def sampleOptions : PushUpstreamImageOptions :=
  ⟨"/images".toList, "myregistry.io".toList, "myns".toList⟩

/-- A registry that refuses the second push. -/
def secondPushFails : PushWorld := fun before _ _ =>
  if before.length = 1 then .error "denied" else .ok ()

/-- A stand-in for `yaml.Unmarshal`: a document starting with `image: ` decodes to one
container with the rest of the document as its image, the empty document decodes to
no container, and anything else is an error. -/
def sampleUnmarshal : Unmarshal := fun doc =>
  if "image: ".toList.isPrefixOf doc then .ok ⟨⟨⟨⟨[⟨doc.drop 7⟩]⟩⟩⟩⟩
  else if doc = [] then .ok ⟨⟨⟨⟨[]⟩⟩⟩⟩
  else .error "cannot unmarshal"

/-- A manifest tree of a directory and two files, which mention three images, one of
them twice. -/
def sampleTree : List ManifestEntry :=
  [.dir,
   .file (.ok "image: app:1\n---\nimage: db:2".toList),
   .file (.ok "image: app:1\n---\nhello\n---\nimage: web:3".toList)]

/-- A registry from which the pull of `db:2` fails. -/
def pullOfDbFails : SaveWorld := fun _ src _ =>
  if src = "docker://db:2".toList then .error "not found" else .ok ()

/-- A registry from which every pull succeeds. -/
def pullSucceeds : SaveWorld := fun _ _ _ => .ok ()

/-! # Properties -/

/-! ## The bundle path -/

theorem splitOn_two (x : Char) (a b : Str) (ha : x ∉ a) (hb : x ∉ b) :
    (a ++ x :: b).splitOn x = [a, b] := by
  have h := List.splitOn_intercalate [a, b] x
    (by intro l hl; simp only [List.mem_cons, List.mem_singleton, List.not_mem_nil,
          or_false] at hl; rcases hl with rfl | rfl <;> assumption)
    (by simp)
  simpa [List.intercalate] using h

theorem stringsJoin_cons (a b : Str) (rest : List Str) :
    stringsJoin (a :: b :: rest) = a ++ '/' :: stringsJoin (b :: rest) := by
  simp [stringsJoin, List.intercalate, List.intersperse]

theorem stringsJoin_single (a : Str) : stringsJoin [a] = a := by
  simp [stringsJoin, List.intercalate, List.intersperse]

theorem stringsJoin_append (A B : List Str) (hA : A ≠ []) (hB : B ≠ []) :
    stringsJoin (A ++ B) = stringsJoin A ++ '/' :: stringsJoin B := by
  induction A with
  | nil => exact absurd rfl hA
  | cons a rest ih =>
    cases rest with
    | nil =>
      cases B with
      | nil => exact absurd rfl hB
      | cons b B1 => simp [stringsJoin_cons, stringsJoin_single]
    | cons a1 rest1 =>
      have := ih (by simp)
      simp only [List.cons_append] at this ⊢
      rw [stringsJoin_cons, this, stringsJoin_cons]
      simp

theorem stringsJoin_splitOn (a : Str) : stringsJoin (a.splitOn '/') = a :=
  List.intercalate_splitOn a '/'

theorem splitOn_ne_nil (x : Char) (a : Str) : a.splitOn x ≠ [] := by
  intro h
  have := List.intercalate_splitOn a x
  induction a with
  | nil => simp [List.splitOn, List.splitOnP_nil] at h
  | cons c cs _ =>
    rw [h] at this
    simp [List.intercalate] at this

theorem splitOnP_sep_free (q : Char → Bool) (a : Str) :
    ∀ l ∈ a.splitOnP q, ∀ c ∈ l, q c = false := by
  induction a with
  | nil =>
    intro l hl c hc
    simp only [List.splitOnP_nil, List.mem_singleton] at hl
    subst hl
    cases hc
  | cons x xs ih =>
    intro l hl c hc
    rw [List.splitOnP_cons] at hl
    by_cases hq : q x = true
    · simp only [hq, if_true, List.mem_cons] at hl
      rcases hl with rfl | hl
      · cases hc
      · exact ih l hl c hc
    · simp only [hq, Bool.false_eq_true, if_false] at hl
      cases hsplit : List.splitOnP q xs with
      | nil =>
        rw [hsplit] at hl
        simp [List.modifyHead] at hl
      | cons h t =>
        rw [hsplit] at hl ih
        simp only [List.modifyHead, List.mem_cons] at hl
        rcases hl with rfl | hl
        · rcases List.mem_cons.1 hc with rfl | hc1
          · simpa using hq
          · exact ih h (List.mem_cons_self _ _) c hc1
        · exact ih l (List.mem_cons_of_mem _ hl) c hc

theorem splitOn_sep_free (x : Char) (a : Str) : ∀ l ∈ a.splitOn x, x ∉ l := by
  intro l hl hx
  have := splitOnP_sep_free (· == x) a l hl x hx
  simp at this

theorem splitOn_stringsJoin (L : List Str) (hfree : ∀ l ∈ L, '/' ∉ l) (hne : L ≠ []) :
    (stringsJoin L).splitOn '/' = L :=
  List.splitOn_intercalate L '/' hfree hne

theorem stringsJoin_injective {L1 L2 : List Str} (h1 : ∀ l ∈ L1, '/' ∉ l)
    (h2 : ∀ l ∈ L2, '/' ∉ l) (n1 : L1 ≠ []) (n2 : L2 ≠ [])
    (h : stringsJoin L1 = stringsJoin L2) : L1 = L2 := by
  rw [← splitOn_stringsJoin L1 h1 n1, ← splitOn_stringsJoin L2 h2 n2, h]

theorem stringsJoin_ne_nil {L : List Str} (hfree : ∀ l ∈ L, '/' ∉ l) {c : Str} (hc : c ∈ L)
    (hcne : c ≠ []) : stringsJoin L ≠ [] := by
  intro h
  have hL := splitOn_stringsJoin L hfree (List.ne_nil_of_mem hc)
  rw [h] at hL
  simp only [List.splitOn, List.splitOnP_nil] at hL
  rw [← hL] at hc
  simp only [List.mem_singleton] at hc
  exact hcne hc

theorem cleanStep_real (rooted : Bool) (out : List Str) {c : Str} (hc : RealElem c) :
    cleanStep rooted out c = c :: out := by
  obtain ⟨h1, h2, h3, _⟩ := hc
  simp [cleanStep, h1, h2, h3]

theorem foldl_cleanStep_real (rooted : Bool) (e : List Str) (he : ∀ c ∈ e, RealElem c) :
    ∀ out, e.foldl (cleanStep rooted) out = e.reverse ++ out := by
  induction e with
  | nil => intro out; rfl
  | cons c rest ih =>
    intro out
    rw [List.foldl_cons, cleanStep_real rooted out (he c (List.mem_cons_self _ _)),
      ih (fun x hx => he x (List.mem_cons_of_mem _ hx))]
    simp

theorem mem_cleanStep (rooted : Bool) (out : List Str) (c l : Str)
    (hl : l ∈ cleanStep rooted out c) : l ∈ out ∨ l = c ∨ l = ['.', '.'] := by
  unfold cleanStep at hl
  by_cases h1 : c = []
  · rw [if_pos h1] at hl; exact Or.inl hl
  · rw [if_neg h1] at hl
    by_cases h2 : c = ['.']
    · rw [if_pos h2] at hl; exact Or.inl hl
    · rw [if_neg h2] at hl
      by_cases h3 : c = ['.', '.']
      · rw [if_pos h3] at hl
        cases out with
        | nil =>
          cases rooted
          · simp only [Bool.false_eq_true, if_false, List.mem_singleton] at hl
            exact Or.inr (Or.inr hl)
          · simp at hl
        | cons top rest =>
          simp only at hl
          by_cases h4 : top = ['.', '.']
          · rw [if_pos h4] at hl
            cases rooted
            · simp only [Bool.false_eq_true, if_false] at hl
              rcases List.mem_cons.1 hl with h | h
              · exact Or.inr (Or.inr h)
              · exact Or.inl h
            · simp only [if_true] at hl
              exact Or.inl hl
          · rw [if_neg h4] at hl
            exact Or.inl (List.mem_cons_of_mem _ hl)
      · rw [if_neg h3] at hl
        rcases List.mem_cons.1 hl with h | h
        · exact Or.inr (Or.inl h)
        · exact Or.inl h

theorem cleanStep_sep_free (rooted : Bool) (out : List Str) (c : Str)
    (hout : ∀ l ∈ out, '/' ∉ l) (hc : '/' ∉ c) : ∀ l ∈ cleanStep rooted out c, '/' ∉ l := by
  intro l hl
  rcases mem_cleanStep rooted out c l hl with h | h | h
  · exact hout l h
  · exact h ▸ hc
  · rw [h]; decide

theorem foldl_cleanStep_sep_free (rooted : Bool) (P : List Str) (hP : ∀ l ∈ P, '/' ∉ l) :
    ∀ out, (∀ l ∈ out, '/' ∉ l) → ∀ l ∈ P.foldl (cleanStep rooted) out, '/' ∉ l := by
  induction P with
  | nil => intro out hout; exact hout
  | cons c rest ih =>
    intro out hout
    rw [List.foldl_cons]
    exact ih (fun x hx => hP x (List.mem_cons_of_mem _ hx)) _
      (cleanStep_sep_free rooted out c hout (hP c (List.mem_cons_self _ _)))

/-- `filepath.Clean` of a path whose last elements are real: they are kept, after what
is left of the elements before them. -/
theorem Clean_stringsJoin (P e : List Str) (hP : ∀ l ∈ P, '/' ∉ l)
    (he : ∀ c ∈ e, RealElem c) (hne : e ≠ []) :
    Clean (stringsJoin (P ++ e)) =
      if (stringsJoin (P ++ e)).head? = some '/' then
        '/' :: stringsJoin ((P.foldl (cleanStep true) []).reverse ++ e)
      else stringsJoin ((P.foldl (cleanStep false) []).reverse ++ e) := by
  have hfree : ∀ l ∈ P ++ e, '/' ∉ l := by
    intro l hl
    rcases List.mem_append.1 hl with h | h
    · exact hP l h
    · exact (he l h).2.2.2
  obtain ⟨c, hc⟩ := List.exists_mem_of_ne_nil e hne
  have hjoin : stringsJoin (P ++ e) ≠ [] :=
    stringsJoin_ne_nil hfree (List.mem_append_right _ hc) (he c hc).1
  have hPe : P ++ e ≠ [] := by simp [hne]
  unfold Clean
  rw [if_neg hjoin]
  simp only [splitOn_stringsJoin (P ++ e) hfree hPe, List.foldl_append,
    foldl_cleanStep_real _ e he, List.reverse_append, List.reverse_reverse]
  by_cases hr : (stringsJoin (P ++ e)).head? = some '/'
  · simp [hr]
  · simp [hr, hne]

theorem head?_stringsJoin (P e : List Str) (hP : ∀ l ∈ P, '/' ∉ l)
    (he : ∀ c ∈ e, RealElem c) (hne : e ≠ []) :
    (stringsJoin (P ++ e)).head? = some '/' ↔ P.head? = some [] := by
  cases P with
  | nil =>
    cases e with
    | nil => exact absurd rfl hne
    | cons c rest =>
      obtain ⟨h1, _, _, h4⟩ := he c (List.mem_cons_self _ _)
      cases c with
      | nil => exact absurd rfl h1
      | cons a as =>
        have ha : a ≠ '/' := fun h => h4 (h ▸ List.mem_cons_self _ _)
        cases rest with
        | nil => simp [stringsJoin_single, ha]
        | cons b rest1 => simp [stringsJoin_cons, ha]
  | cons p0 P1 =>
    have hrest : P1 ++ e ≠ [] := by simp [hne]
    obtain ⟨b, rest1, hb⟩ := List.exists_cons_of_ne_nil hrest
    simp only [List.cons_append, hb, stringsJoin_cons, List.head?_cons, Option.some.injEq]
    cases p0 with
    | nil => simp
    | cons a as =>
      have ha : a ≠ '/' := fun h => hP (a :: as) (List.mem_cons_self _ _)
        (h ▸ List.mem_cons_self _ _)
      simp [ha]

/-- Two paths with the same leading elements and real trailing elements are cleaned to
the same path only if the trailing elements are the same. -/
theorem Clean_stringsJoin_injective (P e1 e2 : List Str) (hP : ∀ l ∈ P, '/' ∉ l)
    (h1 : ∀ c ∈ e1, RealElem c) (h2 : ∀ c ∈ e2, RealElem c) (n1 : e1 ≠ []) (n2 : e2 ≠ [])
    (h : Clean (stringsJoin (P ++ e1)) = Clean (stringsJoin (P ++ e2))) : e1 = e2 := by
  rw [Clean_stringsJoin P e1 hP h1 n1, Clean_stringsJoin P e2 hP h2 n2] at h
  have hfree : ∀ (rooted : Bool) (e : List Str), (∀ c ∈ e, RealElem c) →
      ∀ l ∈ (P.foldl (cleanStep rooted) []).reverse ++ e, '/' ∉ l := by
    intro rooted e he l hl
    rcases List.mem_append.1 hl with hl | hl
    · exact foldl_cleanStep_sep_free rooted P hP [] (by simp) l (List.mem_reverse.1 hl)
    · exact (he l hl).2.2.2
  by_cases hr : P.head? = some []
  · rw [if_pos ((head?_stringsJoin P e1 hP h1 n1).2 hr),
      if_pos ((head?_stringsJoin P e2 hP h2 n2).2 hr)] at h
    simp only [List.cons.injEq, true_and] at h
    have := stringsJoin_injective (hfree true e1 h1) (hfree true e2 h2) (by simp [n1])
      (by simp [n2]) h
    exact List.append_cancel_left this
  · rw [if_neg (fun hx => hr ((head?_stringsJoin P e1 hP h1 n1).1 hx)),
      if_neg (fun hx => hr ((head?_stringsJoin P e2 hP h2 n2).1 hx))] at h
    have := stringsJoin_injective (hfree false e1 h1) (hfree false e2 h2) (by simp [n1])
      (by simp [n2]) h
    exact List.append_cancel_left this

theorem prefixElems_sep_free (formatPrefix : Str) : ∀ l ∈ prefixElems formatPrefix, '/' ∉ l := by
  unfold prefixElems
  split_ifs
  · intro l hl; cases hl
  · exact splitOn_sep_free '/' formatPrefix

/-- `filepath.Join` of a prefix, a name of real elements and further real elements. -/
theorem filepathJoin_eq_Clean (formatPrefix name : Str) (tail : List Str)
    (hname : ∀ c ∈ name.splitOn '/', RealElem c) :
    filepathJoin (formatPrefix :: name :: tail) =
      Clean (stringsJoin (prefixElems formatPrefix ++ (name.splitOn '/' ++ tail))) := by
  have hsplit := splitOn_ne_nil '/' name
  have hnameNe : name ≠ [] := by
    intro h
    rw [h] at hname
    exact (hname [] (by simp [List.splitOn, List.splitOnP_nil])).1 rfl
  have hnt : stringsJoin (name.splitOn '/' ++ tail) = stringsJoin (name :: tail) := by
    cases tail with
    | nil => rw [List.append_nil, stringsJoin_splitOn, stringsJoin_single]
    | cons t0 trest =>
      rw [stringsJoin_append _ _ hsplit (by simp), stringsJoin_splitOn, stringsJoin_cons]
  unfold prefixElems
  by_cases hp : formatPrefix = []
  · rw [if_pos hp, hp]
    simp only [filepathJoin, if_true, hnameNe, if_false, List.nil_append]
    rw [hnt]
  · rw [if_neg hp]
    simp only [filepathJoin, hp, if_false]
    rw [stringsJoin_append _ _ (splitOn_ne_nil '/' formatPrefix) (by simp [hsplit]),
      stringsJoin_splitOn, hnt, stringsJoin_cons]

/-- The elements that a valid reference adds to the format prefix. -/
theorem pathInBundle_eq_Clean (r : ImageRef) (hv : r.Valid) (formatPrefix : Str) :
    ∃ tail : List Str, tail ≠ [] ∧ (∀ c ∈ tail, RealElem c) ∧
      (r.Digest = [] → tail = [r.Tag]) ∧ (r.Tag = [] → tail = r.Digest.splitOn ':') ∧
      r.pathInBundle formatPrefix =
        Clean (stringsJoin (prefixElems formatPrefix ++ (r.Name.splitOn '/' ++ tail))) := by
  obtain ⟨hname, ⟨hd, ht⟩ | ⟨ht, alg, hex, hd, ha, hh, hra, hrh⟩⟩ := hv
  · refine ⟨[r.Tag], by simp, ?_, fun _ => rfl, ?_, ?_⟩
    · intro c hc
      rw [List.mem_singleton.1 hc]; exact ht
    · intro h; exact absurd h ht.1
    · rw [← filepathJoin_eq_Clean formatPrefix r.Name [r.Tag] hname]
      simp [ImageRef.pathInBundle, hd, ht.1]
  · have hsplit : r.Digest.splitOn ':' = [alg, hex] := by
      rw [hd]; exact splitOn_two ':' alg hex ha hh
    have hne : r.Digest ≠ [] := by rw [hd]; simp
    refine ⟨[alg, hex], by simp, ?_, fun h => absurd h hne, fun _ => hsplit.symm, ?_⟩
    · intro c hc
      simp only [List.mem_cons, List.mem_singleton, List.not_mem_nil, or_false] at hc
      rcases hc with rfl | rfl
      · exact hra
      · exact hrh
    · rw [← filepathJoin_eq_Clean formatPrefix r.Name [alg, hex] hname]
      simp [ImageRef.pathInBundle, ht, hne, stringsSplit, hsplit]

/-- Over valid references and for a fixed format prefix, the bundle path determines
the name together with the tag or the pieces of the digest. -/
theorem bundlePath_injective_of_valid (formatPrefix : Str) (r1 r2 : ImageRef)
    (hv1 : r1.Valid) (hv2 : r2.Valid)
    (hpath : r1.pathInBundle formatPrefix = r2.pathInBundle formatPrefix) :
    (r1.Digest = [] → r2.Digest = [] → r1.Name = r2.Name ∧ r1.Tag = r2.Tag) ∧
    (r1.Tag = [] → r2.Tag = [] → r1.Name = r2.Name ∧ r1.Digest = r2.Digest) := by
  obtain ⟨t1, n1, hr1, hd1, ht1, hp1⟩ := pathInBundle_eq_Clean r1 hv1 formatPrefix
  obtain ⟨t2, n2, hr2, hd2, ht2, hp2⟩ := pathInBundle_eq_Clean r2 hv2 formatPrefix
  rw [hp1, hp2] at hpath
  have helems : r1.Name.splitOn '/' ++ t1 = r2.Name.splitOn '/' ++ t2 :=
    Clean_stringsJoin_injective (prefixElems formatPrefix) _ _
      (prefixElems_sep_free formatPrefix)
      (fun c hc => (List.mem_append.1 hc).elim (hv1.1 c) (hr1 c))
      (fun c hc => (List.mem_append.1 hc).elim (hv2.1 c) (hr2 c))
      (by simp [n1]) (by simp [n2]) hpath
  have hname : ∀ (hlen : t1.length = t2.length), r1.Name = r2.Name ∧ t1 = t2 := by
    intro hlen
    have h1 := List.append_inj_left' helems hlen
    have h2 := List.append_inj_right' helems hlen
    refine ⟨?_, h2⟩
    rw [← stringsJoin_splitOn r1.Name, ← stringsJoin_splitOn r2.Name, h1]
  refine ⟨?_, ?_⟩
  · intro h1 h2
    rw [hd1 h1, hd2 h2] at hname
    obtain ⟨hn, ht⟩ := hname rfl
    simp only [List.cons.injEq, and_true] at ht
    exact ⟨hn, ht⟩
  · intro h1 h2
    have hlen : ∀ r : ImageRef, r.Valid → r.Tag = [] → (r.Digest.splitOn ':').length = 2 := by
      intro r hv ht
      rcases hv.2 with ⟨_, hreal⟩ | ⟨_, alg, hex, hd, ha, hh, _, _⟩
      · exact absurd ht hreal.1
      · rw [hd, splitOn_two ':' alg hex ha hh]; rfl
    rw [ht1 h1, ht2 h2] at hname
    obtain ⟨hn, ht⟩ := hname (by rw [hlen r1 hv1 h1, hlen r2 hv2 h2])
    refine ⟨hn, ?_⟩
    rw [← List.intercalate_splitOn r1.Digest ':', ← List.intercalate_splitOn r2.Digest ':', ht]

/-- C1. For every `ImageRef` and format prefix, `pathInBundle` is the path join of
`[formatPrefix, Name, Tag]` when `Tag` is set and `Digest` is empty, and of
`formatPrefix`, `Name` and the pieces of `Digest` split on `:` when `Digest` is set and
`Tag` is empty, which for a digest `algorithm:hex` are the algorithm and the hex part;
`name@sha256:abcd` under `docker-archive` gives `docker-archive/name/sha256/abcd`. -/
theorem pathInBundle_spec (ref : ImageRef) (formatPrefix : Str) :
    (ref.Tag ≠ [] → ref.Digest = [] →
      ref.pathInBundle formatPrefix = filepathJoin [formatPrefix, ref.Name, ref.Tag]) ∧
    (ref.Digest ≠ [] → ref.Tag = [] →
      ref.pathInBundle formatPrefix =
        filepathJoin ([formatPrefix, ref.Name] ++ stringsSplit ref.Digest ':')) ∧
    (∀ algorithm hex : Str, ':' ∉ algorithm → ':' ∉ hex →
      ref.Digest = algorithm ++ ':' :: hex → ref.Tag = [] →
      ref.pathInBundle formatPrefix = filepathJoin [formatPrefix, ref.Name, algorithm, hex]) ∧
    ImageRef.pathInBundle ⟨[], "name".toList, [], "sha256:abcd".toList⟩ "docker-archive".toList
      = "docker-archive/name/sha256/abcd".toList := by
  refine ⟨?_, ?_, ?_, by decide⟩
  · intro ht hd
    simp [ImageRef.pathInBundle, ht, hd]
  · intro hd ht
    simp [ImageRef.pathInBundle, ht, hd]
  · intro algorithm hex ha hh hd ht
    have hne : ref.Digest ≠ [] := by rw [hd]; simp
    simp only [ImageRef.pathInBundle, ht, hne, ne_eq, not_true_eq_false, if_false,
      not_false_eq_true, if_true, stringsSplit]
    rw [hd, splitOn_two ':' algorithm hex ha hh]
    rfl

theorem pathInBundle_spec_witness :
    ImageRef.pathInBundle ⟨[], "app".toList, "1.2.3".toList, []⟩ "docker-archive".toList
        = filepathJoin ["docker-archive".toList, "app".toList, "1.2.3".toList] ∧
      ImageRef.pathInBundle ⟨[], "app".toList, [], "sha256:abcd".toList⟩ "docker-archive".toList
        = filepathJoin ["docker-archive".toList, "app".toList, "sha256".toList, "abcd".toList] :=
  ⟨(pathInBundle_spec ⟨[], "app".toList, "1.2.3".toList, []⟩ "docker-archive".toList).1
      (by decide) (by decide),
    (pathInBundle_spec ⟨[], "app".toList, [], "sha256:abcd".toList⟩
      "docker-archive".toList).2.2.1 "sha256".toList "abcd".toList (by decide) (by decide)
      (by decide) (by decide)⟩

/-! ## The reference parser -/

theorem getBestReferenceType_wf {raw : RawReference} {r : Reference}
    (h : getBestReferenceType raw = some r) : r.WF := by
  unfold getBestReferenceType at h
  split_ifs at h <;> simp only [Option.some.injEq, reduceCtorEq] at h <;> subst h <;>
    simp [Reference.WF, *]

theorem Parse_eq_ok {s : Str} {r : Reference} (h : Parse s = .ok r) :
    ∃ name tag digest domain path, matchReference s = some (name, tag, digest) ∧
      matchName name = some (domain, path) ∧
      getBestReferenceType ⟨domain, path, tag, digest⟩ = some r := by
  unfold Parse at h
  split at h
  · cases h
  · rename_i name tag digest hm
    split at h
    · cases h
    · split at h
      · cases h
      · rename_i domain path hn
        split at h
        · cases h
        · split at h
          · cases h
          · rename_i r1 hb
            simp only [Except.ok.injEq] at h
            subst h
            exact ⟨name, tag, digest, domain, path, hm, hn, hb⟩

theorem Parse_wf {s : Str} {r : Reference} (h : Parse s = .ok r) : r.WF := by
  obtain ⟨_, _, _, _, _, _, _, hb⟩ := Parse_eq_ok h
  exact getBestReferenceType_wf hb

theorem ParseNormalizedNamed_eq_ok {s : Str} {r : Reference}
    (h : ParseNormalizedNamed s = .ok r) :
    Parse ((splitDockerDomain s).1 ++ '/' :: (splitDockerDomain s).2) = .ok r := by
  unfold ParseNormalizedNamed at h
  split at h
  · cases h
  · simp only at h
    split at h
    · cases h
    · split at h
      · cases h
      · rename_i ref hparse
        split at h
        · simp only [Except.ok.injEq] at h
          subst h
          exact hparse
        · cases h

theorem ParseNormalizedNamed_wf {s : Str} {r : Reference}
    (h : ParseNormalizedNamed s = .ok r) : r.WF := by
  exact Parse_wf (ParseNormalizedNamed_eq_ok h)

theorem ParseAnyReference_wf {s : Str} {r : Reference}
    (h : ParseAnyReference s = .ok r) : r.WF := by
  unfold ParseAnyReference at h
  split_ifs at h
  · simp only [Except.ok.injEq] at h
    subst h
    trivial
  · simp only [Except.ok.injEq] at h
    subst h
    trivial
  · exact ParseNormalizedNamed_wf h

theorem imageRefImage_eq_ok {image : Str} {ref : ImageRef}
    (h : imageRefImage image = .ok ref) :
    ∃ parsed, ParseAnyReference image = .ok parsed ∧ imageRefOfParsed parsed = .ok ref := by
  unfold imageRefImage at h
  split at h
  · cases h
  · rename_i parsed hparse
    exact ⟨parsed, hparse, h⟩

/-- C2. For every image string on which `imageRefImage` succeeds, exactly one of `Tag`
and `Digest` of the result is non-empty; and when the parsed reference is neither
`Tagged` nor `Canonical`, `Tag` is `latest` and `Digest` is empty. -/
theorem imageRefImage_tag_xor_digest (image : Str) (ref : ImageRef)
    (h : imageRefImage image = .ok ref) :
    ((ref.Tag ≠ [] ∧ ref.Digest = []) ∨ (ref.Tag = [] ∧ ref.Digest ≠ [])) ∧
    (∀ parsed, ParseAnyReference image = .ok parsed →
      parsed.tagged? = none → parsed.canonical? = none →
        ref.Tag = latest ∧ ref.Digest = []) := by
  obtain ⟨parsed, hparse, href⟩ := imageRefImage_eq_ok h
  have hwf := ParseAnyReference_wf hparse
  refine ⟨?_, ?_⟩
  · cases parsed <;>
      simp only [imageRefOfParsed, Reference.named?, Reference.tagged?, Reference.canonical?,
        Except.ok.injEq, reduceCtorEq] at href <;>
      subst href <;> simp_all [Reference.WF, latest]
  · intro parsed2 hparse2 ht hc
    rw [hparse] at hparse2
    simp only [Except.ok.injEq] at hparse2
    subst hparse2
    cases parsed <;>
      simp only [Reference.tagged?, Reference.canonical?, reduceCtorEq] at ht hc <;>
      simp only [imageRefOfParsed, Reference.named?, Reference.tagged?, Reference.canonical?,
        Except.ok.injEq, reduceCtorEq] at href
    subst href
    exact ⟨rfl, rfl⟩

theorem imageRefImage_tag_xor_digest_witness :
    ((ImageRef.mk "docker.io".toList "docker.io/library/app".toList latest []).Tag ≠ [] ∧
        (ImageRef.mk "docker.io".toList "docker.io/library/app".toList latest []).Digest = [] ∨
      (ImageRef.mk "docker.io".toList "docker.io/library/app".toList latest []).Tag = [] ∧
        (ImageRef.mk "docker.io".toList "docker.io/library/app".toList latest []).Digest ≠ []) ∧
    (∀ parsed, ParseAnyReference "app".toList = .ok parsed →
      parsed.tagged? = none → parsed.canonical? = none →
        (ImageRef.mk "docker.io".toList "docker.io/library/app".toList latest []).Tag = latest ∧
        (ImageRef.mk "docker.io".toList "docker.io/library/app".toList latest []).Digest = []) :=
  imageRefImage_tag_xor_digest "app".toList
    ⟨"docker.io".toList, "docker.io/library/app".toList, latest, []⟩ (by decide)

/-! ### The parser only returns names, tags and digests made of real path elements -/

theorem realElem_of_head {a : Char} {as : Str} (h1 : a ≠ '.') (h2 : a ≠ '/')
    (h3 : '/' ∉ as) : RealElem (a :: as) := by
  refine ⟨by simp, ?_, ?_, ?_⟩
  · intro h
    simp only [List.cons.injEq] at h
    exact h1 h.1
  · intro h
    simp only [List.cons.injEq] at h
    exact h1 h.1
  · intro h
    rcases List.mem_cons.1 h with h | h
    · exact h2 h.symm
    · exact h3 h

theorem isAlphanum_ne {a : Char} (h : a.isAlphanum = true) : a ≠ '.' ∧ a ≠ '/' := by
  constructor <;> (rintro rfl; revert h; decide)

theorem isLowerAlnum_ne {a : Char} (h : isLowerAlnum a = true) : a ≠ '.' ∧ a ≠ '/' := by
  constructor <;> (rintro rfl; revert h; decide)

theorem isWord_ne {a : Char} (h : isWord a = true) : a ≠ '.' ∧ a ≠ '/' := by
  constructor <;> (rintro rfl; revert h; decide)

theorem isAlpha_ne {a : Char} (h : a.isAlpha = true) : a ≠ '.' ∧ a ≠ '/' := by
  constructor <;> (rintro rfl; revert h; decide)

theorem foldl_compStep_none (l : Str) : l.foldl compStep none = none := by
  induction l with
  | nil => rfl
  | cons c cs ih => simpa [List.foldl_cons, compStep] using ih

theorem matchNameComponent_head {c : Str} (h : matchNameComponent c = true) :
    ∃ a as, c = a :: as ∧ isLowerAlnum a = true := by
  unfold matchNameComponent at h
  cases c with
  | nil => simp at h
  | cons a as =>
    refine ⟨a, as, rfl, ?_⟩
    by_contra hn
    simp only [List.foldl_cons, compStep, hn, Bool.false_eq_true, if_false,
      foldl_compStep_none] at h
    simp at h

theorem matchDomainComponent_head {c : Str} (h : matchDomainComponent c = true) :
    ∃ a as, c = a :: as ∧ a.isAlphanum = true := by
  unfold matchDomainComponent at h
  cases c with
  | nil => simp at h
  | cons a as =>
    simp only [Bool.and_eq_true] at h
    exact ⟨a, as, rfl, h.1.1⟩

theorem head_intercalate (sep : Str) (a : Char) (as : Str) (hs : List Str) :
    ∃ t, sep.intercalate ((a :: as) :: hs) = a :: t := by
  cases hs <;> simp [List.intercalate, List.intersperse]

theorem host_head {host : Str} (h : (host.splitOn '.').all matchDomainComponent = true) :
    ∃ a as, host = a :: as ∧ a.isAlphanum = true := by
  obtain ⟨h0, hs, hsplit⟩ := List.exists_cons_of_ne_nil (splitOn_ne_nil '.' host)
  rw [hsplit] at h
  simp only [List.all_cons, Bool.and_eq_true] at h
  obtain ⟨a, as, rfl, ha⟩ := matchDomainComponent_head h.1
  obtain ⟨t, ht⟩ := head_intercalate ['.'] a as hs
  have := List.intercalate_splitOn host '.'
  rw [hsplit, ht] at this
  exact ⟨a, t, this.symm, ha⟩

theorem matchDomain_head {c : Str} (h : matchDomain c = true) :
    ∃ a as, c = a :: as ∧ a.isAlphanum = true := by
  unfold matchDomain at h
  have hc := List.intercalate_splitOn c ':'
  split at h
  · rename_i host hsplit
    rw [hsplit] at hc
    simp only [List.intercalate, List.intersperse, List.flatten_cons, List.flatten_nil,
      List.append_nil] at hc
    rw [← hc]
    exact host_head h
  · rename_i host port hsplit
    rw [hsplit] at hc
    simp only [Bool.and_eq_true] at h
    obtain ⟨a, as, rfl, ha⟩ := host_head h.1.1
    obtain ⟨t, ht⟩ := head_intercalate [':'] a as [port]
    rw [ht] at hc
    exact ⟨a, t, hc.symm, ha⟩
  · simp at h

theorem matchTag_real {t : Str} (h : matchTag t = true) : RealElem t := by
  unfold matchTag at h
  cases t with
  | nil => simp at h
  | cons a as =>
    simp only [Bool.and_eq_true, List.all_eq_true, Bool.or_eq_true, decide_eq_true_eq] at h
    obtain ⟨⟨ha, hall⟩, _⟩ := h
    refine realElem_of_head (isWord_ne ha).1 (isWord_ne ha).2 ?_
    intro hmem
    rcases hall '/' hmem with (hw | hd) | hd
    · exact (isWord_ne hw).2 rfl
    · exact absurd hd (by decide)
    · exact absurd hd (by decide)

theorem foldl_algStep_none (l : Str) : l.foldl algStep none = none := by
  induction l with
  | nil => rfl
  | cons c cs ih => simpa [List.foldl_cons, algStep] using ih

theorem algStep_slash (st : Option Bool) : algStep st '/' = none := by
  rcases st with _ | _ | _ <;> decide

theorem foldl_algStep_sep_free (l : Str) :
    ∀ (st : Option Bool) (b : Bool), l.foldl algStep st = some b → '/' ∉ l := by
  induction l with
  | nil => intro st b _ h; cases h
  | cons c cs ih =>
    intro st b h hmem
    rw [List.foldl_cons] at h
    rcases List.mem_cons.1 hmem with hc | hc
    · rw [← hc, algStep_slash, foldl_algStep_none] at h
      cases h
    · exact ih _ b h hc

theorem algorithm_real {alg : Str} (h : alg.foldl algStep (some true) = some false) :
    RealElem alg := by
  have hfree := foldl_algStep_sep_free alg _ _ h
  cases alg with
  | nil => simp at h
  | cons a as =>
    have ha : a.isAlpha = true := by
      by_contra hn
      simp only [List.foldl_cons, algStep, hn, Bool.false_eq_true, if_false,
        foldl_algStep_none] at h
      simp at h
    exact realElem_of_head (isAlpha_ne ha).1 (isAlpha_ne ha).2
      (fun hm => hfree (List.mem_cons_of_mem _ hm))

theorem hex_real {hex : Str} (hlen : 32 ≤ hex.length) (hall : hex.all isXDigit = true) :
    RealElem hex := by
  refine ⟨?_, ?_, ?_, ?_⟩
  · rintro rfl; simp at hlen
  · rintro rfl; simp at hlen
  · rintro rfl; simp at hlen
  · intro hmem
    rw [List.all_eq_true] at hall
    exact absurd (hall '/' hmem) (by decide)

theorem matchDigest_parts {d : Str} (h : matchDigest d = true) :
    ∃ algorithm hex, d = algorithm ++ ':' :: hex ∧ ':' ∉ algorithm ∧ ':' ∉ hex ∧
      RealElem algorithm ∧ RealElem hex := by
  unfold matchDigest at h
  have hd := List.intercalate_splitOn d ':'
  have hfree := splitOn_sep_free ':' d
  split at h
  · rename_i alg hex hsplit
    rw [hsplit] at hd hfree
    simp only [Bool.and_eq_true, decide_eq_true_eq] at h
    refine ⟨alg, hex, ?_, hfree alg (by simp), hfree hex (by simp), algorithm_real h.1.1,
      hex_real h.1.2 h.2⟩
    rw [← hd]
    simp [List.intercalate, List.intersperse]
  · simp at h

theorem matchName_spec {name d p : Str} (h : matchName name = some (d, p)) :
    (if d = [] then p else d ++ '/' :: p) = name ∧ ∀ c ∈ name.splitOn '/', RealElem c := by
  unfold matchName at h
  have hjoin := stringsJoin_splitOn name
  have hfree := splitOn_sep_free '/' name
  split at h
  · cases h
  · rename_i c rest hsplit
    rw [hsplit] at hjoin hfree
    have hcomp : ∀ x ∈ rest, matchNameComponent x = true → RealElem x := by
      intro x hx hm
      obtain ⟨a, as, rfl, ha⟩ := matchNameComponent_head hm
      exact realElem_of_head (isLowerAlnum_ne ha).1 (isLowerAlnum_ne ha).2
        (fun hmem => hfree _ (List.mem_cons_of_mem _ hx) (List.mem_cons_of_mem _ hmem))
    split_ifs at h with h1 h2
    · simp only [Option.some.injEq, Prod.mk.injEq] at h
      obtain ⟨rfl, rfl⟩ := h
      simp only [Bool.and_eq_true, decide_eq_true_eq, List.all_eq_true] at h1
      obtain ⟨⟨hne, hdom⟩, hall⟩ := h1
      obtain ⟨a, as, rfl, ha⟩ := matchDomain_head hdom
      obtain ⟨b, rest1, rfl⟩ := List.exists_cons_of_ne_nil hne
      refine ⟨?_, ?_⟩
      · rw [if_neg (by simp), ← hjoin, stringsJoin_cons]
      · rw [hsplit]
        intro x hx
        rcases List.mem_cons.1 hx with rfl | hx
        · exact realElem_of_head (isAlphanum_ne ha).1 (isAlphanum_ne ha).2
            (fun hmem => hfree _ (List.mem_cons_self _ _) (List.mem_cons_of_mem _ hmem))
        · exact hcomp x hx (hall x hx)
    · simp only [Option.some.injEq, Prod.mk.injEq] at h
      obtain ⟨rfl, rfl⟩ := h
      simp only [List.all_cons, Bool.and_eq_true, List.all_eq_true] at h2
      refine ⟨by simp, ?_⟩
      rw [hsplit]
      intro x hx
      rcases List.mem_cons.1 hx with rfl | hx
      · obtain ⟨a, as, rfl, ha⟩ := matchNameComponent_head h2.1
        exact realElem_of_head (isLowerAlnum_ne ha).1 (isLowerAlnum_ne ha).2
          (fun hmem => hfree _ (List.mem_cons_self _ _) (List.mem_cons_of_mem _ hmem))
      · exact hcomp x hx (h2.2 x hx)

theorem matchReference_spec {s name tag digest : Str}
    (h : matchReference s = some (name, tag, digest)) :
    (tag = [] ∨ matchTag tag = true) ∧ (digest = [] ∨ matchDigest digest = true) := by
  unfold matchReference at h
  simp only at h
  split_ifs at h with hc
  simp only [Option.some.injEq, Prod.mk.injEq] at h
  obtain ⟨_, rfl, rfl⟩ := h
  simp only [Bool.and_eq_true] at hc
  obtain ⟨⟨hd, ht⟩, _⟩ := hc
  constructor
  · revert ht
    cases (splitTag _).2 with
    | none => intro _; exact Or.inl rfl
    | some t => intro ht; exact Or.inr ht
  · revert hd
    cases (splitDigest s).2 with
    | none => intro _; exact Or.inl rfl
    | some d => intro hd; exact Or.inr hd

theorem latest_real : RealElem latest := by
  refine ⟨by decide, by decide, by decide, by decide⟩

/-- Every reference that `imageRefImage` returns is valid. -/
theorem imageRefImage_valid {image : Str} {ref : ImageRef}
    (h : imageRefImage image = .ok ref) : ref.Valid := by
  obtain ⟨parsed, hparse, href⟩ := imageRefImage_eq_ok h
  have hnn : ParseNormalizedNamed image = .ok parsed := by
    unfold ParseAnyReference at hparse
    split_ifs at hparse
    · simp only [Except.ok.injEq] at hparse
      subst hparse
      simp [imageRefOfParsed, Reference.named?] at href
    · simp only [Except.ok.injEq] at hparse
      subst hparse
      simp [imageRefOfParsed, Reference.named?] at href
    · exact hparse
  obtain ⟨name, tag, digest, domain, path, hm, hn, hb⟩ :=
    Parse_eq_ok (ParseNormalizedNamed_eq_ok hnn)
  obtain ⟨hname, hreal⟩ := matchName_spec hn
  obtain ⟨htag, hdig⟩ := matchReference_spec hm
  unfold getBestReferenceType at hb
  simp only [hname] at hb
  split_ifs at hb <;>
    simp only [Option.some.injEq, reduceCtorEq] at hb <;> subst hb <;>
    simp only [imageRefOfParsed, Reference.named?, Reference.tagged?, Reference.canonical?,
      Except.ok.injEq, reduceCtorEq, hname] at href <;> subst href
  all_goals first
    | exact ⟨hreal, Or.inl ⟨rfl, latest_real⟩⟩
    | exact ⟨hreal, Or.inl ⟨rfl, matchTag_real (htag.resolve_left (by assumption))⟩⟩
    | exact ⟨hreal, Or.inr ⟨rfl, matchDigest_parts (hdig.resolve_left (by assumption))⟩⟩

/-- C6 does not hold as stated: over `ImageRef` values in tag form, name `a/b` with tag
`c` and name `a` with tag `b/c` get the same path, and over values in digest form so do
name `a/b` with digest `c:d` and name `a` with digest `b/c:d`. -/
theorem pathInBundle_injective_counterexample :
    ImageRef.pathInBundle ⟨[], "a/b".toList, "c".toList, []⟩ dockerArchive
        = "docker-archive/a/b/c".toList ∧
      ImageRef.pathInBundle ⟨[], "a".toList, "b/c".toList, []⟩ dockerArchive
        = "docker-archive/a/b/c".toList ∧
      ("a/b".toList, "c".toList) ≠ ("a".toList, "b/c".toList) ∧
      ImageRef.pathInBundle ⟨[], "a/b".toList, [], "c:d".toList⟩ dockerArchive
        = "docker-archive/a/b/c/d".toList ∧
      ImageRef.pathInBundle ⟨[], "a".toList, [], "b/c:d".toList⟩ dockerArchive
        = "docker-archive/a/b/c/d".toList ∧
      ("a/b".toList, "c:d".toList) ≠ ("a".toList, "b/c:d".toList) := by
  refine ⟨by decide, by decide, by decide, by decide, by decide, by decide⟩

/-- C6, amended. For a fixed format prefix, `pathInBundle` is injective over the
tag-form references and over the digest-form references that `imageRefImage` returns:
equal paths give equal `(Name, Tag)` for two tag-form references, and equal
`(Name, Digest)` for two digest-form references. -/
theorem pathInBundle_injective (formatPrefix image1 image2 : Str) (ref1 ref2 : ImageRef)
    (h1 : imageRefImage image1 = .ok ref1) (h2 : imageRefImage image2 = .ok ref2)
    (hpath : ref1.pathInBundle formatPrefix = ref2.pathInBundle formatPrefix) :
    (ref1.Digest = [] → ref2.Digest = [] → ref1.Name = ref2.Name ∧ ref1.Tag = ref2.Tag) ∧
    (ref1.Tag = [] → ref2.Tag = [] → ref1.Name = ref2.Name ∧ ref1.Digest = ref2.Digest) :=
  bundlePath_injective_of_valid formatPrefix ref1 ref2 (imageRefImage_valid h1)
    (imageRefImage_valid h2) hpath

theorem pathInBundle_injective_witness :
    (ImageRef.mk "docker.io".toList "docker.io/library/app".toList latest []).Name
        = (ImageRef.mk "docker.io".toList "docker.io/library/app".toList latest []).Name ∧
      (ImageRef.mk "docker.io".toList "docker.io/library/app".toList latest []).Tag
        = (ImageRef.mk "docker.io".toList "docker.io/library/app".toList latest []).Tag :=
  (pathInBundle_injective dockerArchive "app".toList "app:latest".toList
    ⟨"docker.io".toList, "docker.io/library/app".toList, latest, []⟩
    ⟨"docker.io".toList, "docker.io/library/app".toList, latest, []⟩
    (by decide) (by decide) rfl).1 rfl rfl

/-! ### The registry domain in the archive path -/

theorem archivePath_eq {imagesDir image : Str} {ref : ImageRef}
    (h : imageRefImage image = .ok ref) :
    archivePath imagesDir image = some (filepathJoin [imagesDir, ref.pathInBundle dockerArchive]) := by
  simp [archivePath, h, archiveName]

theorem matchName_domain {name d p : Str} (h : matchName name = some (d, p)) (hd : d ≠ []) :
    ∃ rest, name.splitOn '/' = d :: rest := by
  unfold matchName at h
  split at h
  · cases h
  · rename_i c rest hsplit
    split_ifs at h
    · simp only [Option.some.injEq, Prod.mk.injEq] at h
      exact ⟨rest, by rw [hsplit, h.1]⟩
    · simp only [Option.some.injEq, Prod.mk.injEq] at h
      exact absurd h.1.symm hd

/-- The domain of a reference that `imageRefImage` returns, when it has one, is the
first element of its name. -/
theorem imageRefImage_domain {image : Str} {ref : ImageRef}
    (h : imageRefImage image = .ok ref) (hd : ref.Domain ≠ []) :
    ∃ rest, ref.Name.splitOn '/' = ref.Domain :: rest := by
  obtain ⟨parsed, hparse, href⟩ := imageRefImage_eq_ok h
  have hnn : ParseNormalizedNamed image = .ok parsed := by
    unfold ParseAnyReference at hparse
    split_ifs at hparse
    · simp only [Except.ok.injEq] at hparse
      subst hparse
      simp [imageRefOfParsed, Reference.named?] at href
    · simp only [Except.ok.injEq] at hparse
      subst hparse
      simp [imageRefOfParsed, Reference.named?] at href
    · exact hparse
  obtain ⟨name, tag, digest, domain, path, hm, hn, hb⟩ :=
    Parse_eq_ok (ParseNormalizedNamed_eq_ok hnn)
  obtain ⟨hname, _⟩ := matchName_spec hn
  unfold getBestReferenceType at hb
  simp only [hname] at hb
  split_ifs at hb <;>
    simp only [Option.some.injEq, reduceCtorEq] at hb <;> subst hb <;>
    simp only [imageRefOfParsed, Reference.named?, Reference.tagged?, Reference.canonical?,
      Except.ok.injEq, reduceCtorEq, hname] at href <;> subst href
  all_goals exact matchName_domain hn hd

theorem Clean_real (e : List Str) (he : ∀ c ∈ e, RealElem c) (hne : e ≠ []) :
    Clean (stringsJoin e) = stringsJoin e := by
  have h := Clean_stringsJoin [] e (by simp) he hne
  have hroot := head?_stringsJoin [] e (by simp) he hne
  simp only [List.nil_append, List.head?_nil, reduceCtorEq, iff_false] at h hroot
  rw [h, if_neg hroot]
  simp

/-- The elements of the archive name of a valid reference below `imagesDir`:
`docker-archive`, the elements of the name, and the tag or the two parts of the
digest. -/
theorem archiveName_eq_Clean (imagesDir : Str) (r : ImageRef) (hv : r.Valid) :
    ∃ tail : List Str, tail ≠ [] ∧
      (∀ c ∈ dockerArchive :: (r.Name.splitOn '/' ++ tail), RealElem c) ∧
      archiveName imagesDir r =
        Clean (stringsJoin
          (prefixElems imagesDir ++ dockerArchive :: (r.Name.splitOn '/' ++ tail))) := by
  obtain ⟨tail, htail, hr, _, _, hp⟩ := pathInBundle_eq_Clean r hv dockerArchive
  have hpre : prefixElems dockerArchive = [dockerArchive] := by decide
  have hreal : ∀ c ∈ dockerArchive :: (r.Name.splitOn '/' ++ tail), RealElem c := by
    intro c hc
    rcases List.mem_cons.1 hc with rfl | hc
    · decide
    · exact (List.mem_append.1 hc).elim (hv.1 c) (hr c)
  rw [hpre, List.singleton_append, Clean_real _ hreal (by simp)] at hp
  refine ⟨tail, htail, hreal, ?_⟩
  have hsplit : (r.pathInBundle dockerArchive).splitOn '/'
      = dockerArchive :: (r.Name.splitOn '/' ++ tail) := by
    rw [hp]
    exact splitOn_stringsJoin _ (fun l hl => (hreal l hl).2.2.2) (by simp)
  unfold archiveName
  rw [filepathJoin_eq_Clean imagesDir _ [] (by rw [hsplit]; exact hreal), hsplit,
    List.append_nil]

/-- References that `imageRefImage` returns with different domains have different
archive names. -/
theorem archiveName_ne_of_domain_ne (imagesDir image1 image2 : Str) (ref1 ref2 : ImageRef)
    (h1 : imageRefImage image1 = .ok ref1) (h2 : imageRefImage image2 = .ok ref2)
    (hd1 : ref1.Domain ≠ []) (hd2 : ref2.Domain ≠ []) (hne : ref1.Domain ≠ ref2.Domain) :
    archiveName imagesDir ref1 ≠ archiveName imagesDir ref2 := by
  intro heq
  obtain ⟨t1, _, hr1, hp1⟩ := archiveName_eq_Clean imagesDir ref1 (imageRefImage_valid h1)
  obtain ⟨t2, _, hr2, hp2⟩ := archiveName_eq_Clean imagesDir ref2 (imageRefImage_valid h2)
  rw [hp1, hp2] at heq
  have helems := Clean_stringsJoin_injective (prefixElems imagesDir) _ _
    (prefixElems_sep_free imagesDir) hr1 hr2 (by simp) (by simp) heq
  obtain ⟨rest1, hs1⟩ := imageRefImage_domain h1 hd1
  obtain ⟨rest2, hs2⟩ := imageRefImage_domain h2 hd2
  rw [hs1, hs2] at helems
  simp only [List.cons_append, List.cons.injEq, true_and] at helems
  exact hne helems.1

/-- The archive name of a reference that `imageRefImage` returns with a domain has the
element `docker-archive` followed by the domain as an element. -/
theorem archiveName_has_domain (imagesDir image : Str) (ref : ImageRef)
    (h : imageRefImage image = .ok ref) (hd : ref.Domain ≠ []) :
    ∃ before after, archiveName imagesDir ref
      = before ++ dockerArchive ++ '/' :: ref.Domain ++ '/' :: after := by
  obtain ⟨tail, htail, hreal, hp⟩ := archiveName_eq_Clean imagesDir ref (imageRefImage_valid h)
  obtain ⟨rest, hs⟩ := imageRefImage_domain h hd
  rw [hs] at hp hreal
  obtain ⟨m0, ms, hm⟩ := List.exists_cons_of_ne_nil
    (show rest ++ tail ≠ [] by simp [htail])
  rw [Clean_stringsJoin (prefixElems imagesDir) _ (prefixElems_sep_free imagesDir) hreal
    (by simp)] at hp
  have hE : stringsJoin (dockerArchive :: (ref.Domain :: rest ++ tail))
      = dockerArchive ++ '/' :: ref.Domain ++ '/' :: stringsJoin (m0 :: ms) := by
    rw [List.cons_append, hm, stringsJoin_cons, stringsJoin_cons]
    simp
  have hjoin : ∀ S : List Str, ∃ before,
      stringsJoin (S ++ dockerArchive :: (ref.Domain :: rest ++ tail))
        = before ++ dockerArchive ++ '/' :: ref.Domain ++ '/' :: stringsJoin (m0 :: ms) := by
    intro S
    by_cases hS : S = []
    · exact ⟨[], by rw [hS, List.nil_append, hE]; simp⟩
    · exact ⟨stringsJoin S ++ ['/'], by
        rw [stringsJoin_append S _ hS (by simp), hE]; simp⟩
  split_ifs at hp
  · obtain ⟨before, hb⟩ := hjoin (List.foldl (cleanStep true) [] (prefixElems imagesDir)).reverse
    exact ⟨'/' :: before, stringsJoin (m0 :: ms), by rw [hp, hb]; simp⟩
  · obtain ⟨before, hb⟩ := hjoin (List.foldl (cleanStep false) [] (prefixElems imagesDir)).reverse
    exact ⟨before, stringsJoin (m0 :: ms), by rw [hp, hb]⟩

/-- C5 does not hold as stated: under `/images` the archive path of
`registry.example.com/app:1.2.3` is `/images/docker-archive/registry.example.com/app/1.2.3`,
not `/images/docker-archive/app/1.2.3`, and `a.com/x:1` and `b.com/x:1` get different
archive paths. -/
theorem archivePath_drops_domain_counterexample :
    archivePath "/images".toList "registry.example.com/app:1.2.3".toList
        = some "/images/docker-archive/registry.example.com/app/1.2.3".toList ∧
      archivePath "/images".toList "registry.example.com/app:1.2.3".toList
        ≠ some "/images/docker-archive/app/1.2.3".toList ∧
      archivePath "/images".toList "a.com/x:1".toList
        = some "/images/docker-archive/a.com/x/1".toList ∧
      archivePath "/images".toList "b.com/x:1".toList
        = some "/images/docker-archive/b.com/x/1".toList ∧
      archivePath "/images".toList "a.com/x:1".toList
        ≠ archivePath "/images".toList "b.com/x:1".toList := by
  refine ⟨by decide, by decide, by decide, by decide, by decide⟩

/-- C5, amended. The archive path that `saveOneImage` derives from an image string
contains the registry domain of the parsed reference: whenever the parsed reference
has a domain, `Name` is the domain, a slash and the path, and the archive path has the
form `<before>docker-archive/<domain>/<after>`. For
`registry.example.com/app:1.2.3` the archive path is the join of `imagesDir` and
`docker-archive/registry.example.com/app/1.2.3`. Two image strings whose parsed
references have different non-empty domains, such as `a.com/x:1` and `b.com/x:1`, are
given different archive paths, for every `imagesDir`; `index.docker.io/foo/bar:1` and
`docker.io/foo/bar:1`, whose domains are both parsed as `docker.io`, are given the same
archive path. -/
theorem archivePath_keeps_domain (imagesDir : Str) :
    (∀ image ref, imageRefImage image = .ok ref → ref.Domain ≠ [] →
      ∃ path, ref.Name = ref.Domain ++ '/' :: path) ∧
    (∀ image ref, imageRefImage image = .ok ref → ref.Domain ≠ [] →
      ∃ before after, archivePath imagesDir image
        = some (before ++ dockerArchive ++ '/' :: ref.Domain ++ '/' :: after)) ∧
    (∀ image1 image2 ref1 ref2, imageRefImage image1 = .ok ref1 →
      imageRefImage image2 = .ok ref2 → ref1.Domain ≠ [] → ref2.Domain ≠ [] →
      ref1.Domain ≠ ref2.Domain →
      archivePath imagesDir image1 ≠ archivePath imagesDir image2) ∧
    archivePath imagesDir "index.docker.io/foo/bar:1".toList
      = archivePath imagesDir "docker.io/foo/bar:1".toList ∧
    archivePath imagesDir "registry.example.com/app:1.2.3".toList
      = some (filepathJoin
          [imagesDir, "docker-archive/registry.example.com/app/1.2.3".toList]) ∧
    archivePath imagesDir "a.com/x:1".toList
      = some (filepathJoin [imagesDir, "docker-archive/a.com/x/1".toList]) ∧
    archivePath imagesDir "b.com/x:1".toList
      = some (filepathJoin [imagesDir, "docker-archive/b.com/x/1".toList]) ∧
    archivePath imagesDir "a.com/x:1".toList ≠ archivePath imagesDir "b.com/x:1".toList := by
  have hreg : imageRefImage "registry.example.com/app:1.2.3".toList
      = .ok ⟨"registry.example.com".toList, "registry.example.com/app".toList,
          "1.2.3".toList, []⟩ := by decide
  have ha : imageRefImage "a.com/x:1".toList
      = .ok ⟨"a.com".toList, "a.com/x".toList, "1".toList, []⟩ := by decide
  have hb : imageRefImage "b.com/x:1".toList
      = .ok ⟨"b.com".toList, "b.com/x".toList, "1".toList, []⟩ := by decide
  have hpa : archivePath imagesDir "a.com/x:1".toList
      = some (filepathJoin [imagesDir, "docker-archive/a.com/x/1".toList]) := by
    rw [archivePath_eq ha]
    exact congrArg (fun p => some (filepathJoin [imagesDir, p])) (by decide)
  have hpb : archivePath imagesDir "b.com/x:1".toList
      = some (filepathJoin [imagesDir, "docker-archive/b.com/x/1".toList]) := by
    rw [archivePath_eq hb]
    exact congrArg (fun p => some (filepathJoin [imagesDir, p])) (by decide)
  refine ⟨?_, ?_, ?_, ?_, ?_, hpa, hpb, ?_⟩
  · intro image ref h hdom
    obtain ⟨parsed, _, href⟩ := imageRefImage_eq_ok h
    cases parsed <;>
      simp only [imageRefOfParsed, Reference.named?, Reference.tagged?, Reference.canonical?,
        Except.ok.injEq, reduceCtorEq] at href <;>
      subst href <;> simp only at hdom <;> simp [hdom]
  · intro image ref h hdom
    obtain ⟨before, after, hb⟩ := archiveName_has_domain imagesDir image ref h hdom
    exact ⟨before, after, by simp only [archivePath, h]; rw [hb]⟩
  · intro image1 image2 ref1 ref2 h1 h2 hd1 hd2 hne heq
    simp only [archivePath, h1, h2, Option.some.injEq] at heq
    exact archiveName_ne_of_domain_ne imagesDir image1 image2 ref1 ref2 h1 h2 hd1 hd2 hne heq
  · have hi : imageRefImage "index.docker.io/foo/bar:1".toList
        = .ok ⟨"docker.io".toList, "docker.io/foo/bar".toList, "1".toList, []⟩ := by decide
    have hd : imageRefImage "docker.io/foo/bar:1".toList
        = .ok ⟨"docker.io".toList, "docker.io/foo/bar".toList, "1".toList, []⟩ := by decide
    rw [archivePath_eq hi, archivePath_eq hd]
  · rw [archivePath_eq hreg]
    exact congrArg (fun p => some (filepathJoin [imagesDir, p])) (by decide)
  · rw [hpa, hpb]
    intro heq
    simp only [Option.some.injEq] at heq
    rw [filepathJoin_eq_Clean imagesDir _ [] (by decide),
      filepathJoin_eq_Clean imagesDir _ [] (by decide)] at heq
    have := Clean_stringsJoin_injective (prefixElems imagesDir) _ _
      (prefixElems_sep_free imagesDir) (by decide) (by decide) (by decide) (by decide) heq
    exact absurd this (by decide)

theorem archivePath_keeps_domain_witness :
    archivePath "/images".toList "quay.io/org/app:2".toList
      ≠ archivePath "/images".toList "gcr.io/org/app:2".toList :=
  (archivePath_keeps_domain "/images".toList).2.2.1 "quay.io/org/app:2".toList
    "gcr.io/org/app:2".toList
    ⟨"quay.io".toList, "quay.io/org/app".toList, "2".toList, []⟩
    ⟨"gcr.io".toList, "gcr.io/org/app".toList, "2".toList, []⟩
    (by decide) (by decide) (by decide) (by decide) (by decide)

/-- C3 does not hold as stated: `app:1.2.3@sha256:0123...` parses to a reference that
is both `Tagged` and `Canonical`, and `imageRefImage` returns its tag and no digest. -/
theorem imageRefImage_digest_wins_counterexample :
    ParseAnyReference
        "app:1.2.3@sha256:0123456789abcdef0123456789abcdef0123456789abcdef0123456789abcdef".toList
      = .ok (.reference "docker.io".toList "library/app".toList "1.2.3".toList
          "sha256:0123456789abcdef0123456789abcdef0123456789abcdef0123456789abcdef".toList) ∧
    imageRefImage
        "app:1.2.3@sha256:0123456789abcdef0123456789abcdef0123456789abcdef0123456789abcdef".toList
      = .ok ⟨"docker.io".toList, "docker.io/library/app".toList, "1.2.3".toList, []⟩ ∧
    ¬ (∀ (image : Str) (parsed : Reference) (tag digest : Str) (ref : ImageRef),
        ParseAnyReference image = .ok parsed → parsed.tagged? = some tag →
        parsed.canonical? = some digest → imageRefImage image = .ok ref →
        ref.Digest = digest ∧ ref.Tag = []) := by
  refine ⟨by decide, by decide, fun hall => ?_⟩
  have h := hall
    "app:1.2.3@sha256:0123456789abcdef0123456789abcdef0123456789abcdef0123456789abcdef".toList
    _ _ _ _ (by decide : ParseAnyReference _ = .ok (.reference "docker.io".toList
      "library/app".toList "1.2.3".toList
      "sha256:0123456789abcdef0123456789abcdef0123456789abcdef0123456789abcdef".toList))
    rfl rfl
    (by decide : imageRefImage _ = .ok ⟨"docker.io".toList, "docker.io/library/app".toList,
      "1.2.3".toList, []⟩)
  exact absurd h.2 (by decide)

/-- C3, amended. For every parsed reference that is both `Tagged` and `Canonical`,
`imageRefImage` returns an `ImageRef` whose `Tag` is the reference's tag and whose
`Digest` is unset: the tag wins over the digest. -/
theorem imageRefImage_tag_wins (image : Str) (parsed : Reference) (tag digest : Str)
    (hparse : ParseAnyReference image = .ok parsed) (ht : parsed.tagged? = some tag)
    (hc : parsed.canonical? = some digest) :
    ∃ ref, imageRefImage image = .ok ref ∧ ref.Tag = tag ∧ ref.Digest = [] := by
  unfold imageRefImage
  rw [hparse]
  cases parsed <;> simp only [Reference.tagged?, Reference.canonical?, reduceCtorEq] at ht hc
  simp only [Option.some.injEq] at ht
  subst ht
  exact ⟨_, rfl, rfl, rfl⟩

theorem imageRefImage_tag_wins_witness :
    ∃ ref, imageRefImage
        "app:1.2.3@sha256:0123456789abcdef0123456789abcdef0123456789abcdef0123456789abcdef".toList
      = .ok ref ∧ ref.Tag = "1.2.3".toList ∧ ref.Digest = [] :=
  imageRefImage_tag_wins _ (.reference "docker.io".toList "library/app".toList "1.2.3".toList
      "sha256:0123456789abcdef0123456789abcdef0123456789abcdef0123456789abcdef".toList)
    "1.2.3".toList
    "sha256:0123456789abcdef0123456789abcdef0123456789abcdef0123456789abcdef".toList
    (by decide) rfl rfl

/-! ## The push destination -/

/-- C9, the code at a digest-only entry: with an empty tag the destination that
`CopyFromFileToRegistry` builds is `docker://<name>:`, whatever the digest, and the
digest has no influence on the result of the call. -/
theorem CopyFromFileToRegistry_ignores_digest (world : PushWorld) (before : List PushCall)
    (path name tag digest1 digest2 : Str) :
    CopyFromFileToRegistry world before path name tag digest1 =
        CopyFromFileToRegistry world before path name tag digest2 ∧
      destStr name [] digest1 = dockerScheme ++ name ++ [':'] ∧
      destStr "myregistry.io/myns/app".toList []
          "sha256:0123456789abcdef0123456789abcdef0123456789abcdef0123456789abcdef".toList
        = "docker://myregistry.io/myns/app:".toList := by
  refine ⟨rfl, rfl, by decide⟩

/-! ## The manifest scanner -/

theorem foldl_images (unmarshal : Unmarshal) (docs : List Str) :
    ∀ acc : List Str,
      docs.foldl
        (fun images yamlDoc =>
          match unmarshal yamlDoc with
          | .error _ => images
          | .ok parsed => images ++ parsed.Spec.Template.Spec.Containers.map (·.Image))
        acc = acc ++ (docs.map (imagesOfDoc unmarshal)).flatten := by
  induction docs with
  | nil => intro acc; simp
  | cons doc rest ih =>
    intro acc
    simp only [List.foldl_cons, List.map_cons, List.flatten_cons]
    rw [ih]
    unfold imagesOfDoc
    cases unmarshal doc <;> simp

/-- C10. `listImagesInFile` is total, and for every file content it returns, document
after document and container after container, the image fields of the containers at
`spec.template.spec.containers` of each document that decodes; a document that fails
to decode contributes nothing, so a file none of whose documents decodes to a
container, as with plain text, yields the empty list. -/
theorem listImagesInFile_spec (unmarshal : Unmarshal) (contents : Str) :
    listImagesInFile unmarshal contents =
        ((bytesSplit contents yamlDelimiter).map (imagesOfDoc unmarshal)).flatten ∧
      (∀ doc parsed, unmarshal doc = .ok parsed →
        imagesOfDoc unmarshal doc = parsed.Spec.Template.Spec.Containers.map (·.Image)) ∧
      (∀ doc err, unmarshal doc = .error err → imagesOfDoc unmarshal doc = []) ∧
      ((∀ doc ∈ bytesSplit contents yamlDelimiter, (∃ err, unmarshal doc = .error err) ∨
          ∃ parsed, unmarshal doc = .ok parsed ∧ parsed.Spec.Template.Spec.Containers = []) →
        listImagesInFile unmarshal contents = []) := by
  have hlist : listImagesInFile unmarshal contents =
      ((bytesSplit contents yamlDelimiter).map (imagesOfDoc unmarshal)).flatten := by
    unfold listImagesInFile
    simp only
    rw [foldl_images]
    simp
  refine ⟨hlist, ?_, ?_, ?_⟩
  · intro doc parsed h
    simp [imagesOfDoc, h]
  · intro doc err h
    simp [imagesOfDoc, h]
  · intro hall
    rw [hlist]
    simp only [List.flatten_eq_nil_iff, List.mem_map, forall_exists_index, and_imp,
      forall_apply_eq_imp_iff₂]
    intro doc hdoc
    rcases hall doc hdoc with ⟨err, h⟩ | ⟨parsed, h, hc⟩
    · simp [imagesOfDoc, h]
    · simp [imagesOfDoc, h, hc]

theorem listImagesInFile_spec_witness :
    listImagesInFile sampleUnmarshal "hello world\n---\nsecond: text".toList = [] :=
  (listImagesInFile_spec sampleUnmarshal "hello world\n---\nsecond: text".toList).2.2.2
    (by
      have hs : bytesSplit "hello world\n---\nsecond: text".toList yamlDelimiter
          = ["hello world".toList, "second: text".toList] := by decide
      intro doc hdoc
      rw [hs] at hdoc
      simp only [List.mem_cons, List.mem_singleton, List.not_mem_nil, or_false] at hdoc
      rcases hdoc with rfl | rfl
      · exact Or.inl ⟨"cannot unmarshal", by decide⟩
      · exact Or.inl ⟨"cannot unmarshal", by decide⟩)

/-! ## Lemmas on runs -/

theorem allSaved_snoc {world : SaveWorld} {imagesDir : Str} {calls : List Str} {image : Str}
    (h : AllSaved world imagesDir calls)
    (hs : saveOneImage world calls imagesDir image = .ok ()) :
    AllSaved world imagesDir (calls ++ [image]) := by
  intro pre x post hsplit
  rcases List.eq_nil_or_concat post with hp | ⟨post1, y, hp⟩
  · subst hp
    have h1 : calls = pre := List.append_inj_left' hsplit rfl
    have h2 : [image] = [x] := List.append_inj_right' hsplit rfl
    simp only [List.cons.injEq, and_true] at h2
    subst h1; subst h2; exact hs
  · subst hp
    have hsplit2 : calls ++ [image] = (pre ++ x :: post1) ++ [y] := by
      rw [hsplit]; simp
    have h1 : calls = pre ++ x :: post1 := List.append_inj_left' hsplit2 (by simp)
    exact h pre x post1 h1

theorem extractLoop_spec (world : SaveWorld) (imagesDir : Str) (images : List Str) :
    ∀ st : SaveState, SaveInv world imagesDir st →
      (∀ st1, extractLoop world imagesDir images st = (none, st1) →
        SaveInv world imagesDir st1 ∧ ∀ x, x ∈ st1.calls ↔ x ∈ st.calls ∨ x ∈ images) ∧
      (∀ e st1, extractLoop world imagesDir images st = (some e, st1) →
        SaveFailed world imagesDir st1) := by
  induction images with
  | nil =>
    intro st hinv
    refine ⟨?_, ?_⟩
    · intro st1 h
      simp only [extractLoop, Prod.mk.injEq, true_and] at h
      subst h
      exact ⟨hinv, by simp⟩
    · intro e st1 h
      simp [extractLoop] at h
  | cons image rest ih =>
    intro st hinv
    by_cases hmem : image ∈ st.savedImages
    · have hcall : image ∈ st.calls := (hinv.saved image).1 hmem
      simp only [extractLoop, hmem, if_true]
      refine ⟨?_, (ih st hinv).2⟩
      intro st1 h
      obtain ⟨h1, h2⟩ := (ih st hinv).1 st1 h
      refine ⟨h1, fun x => ?_⟩
      rw [h2 x]
      simp only [List.mem_cons]
      constructor
      · rintro (h | h)
        · exact Or.inl h
        · exact Or.inr (Or.inr h)
      · rintro (h | h | h)
        · exact Or.inl h
        · exact Or.inl (h ▸ hcall)
        · exact Or.inr h
    · have hncall : image ∉ st.calls := fun h => hmem ((hinv.saved image).2 h)
      simp only [extractLoop, hmem, if_false]
      cases hs : saveOneImage world st.calls imagesDir image with
      | error err =>
        simp only
        refine ⟨?_, ?_⟩
        · intro st1 h
          simp at h
        · intro e st1 h
          simp only [Prod.mk.injEq] at h
          obtain ⟨_, h⟩ := h
          subst h
          refine ⟨st.calls, image, rfl, hinv.allSaved, ?_, hinv.saved, ?_⟩
          · exact List.nodup_append.2 ⟨hinv.nodup, List.nodup_singleton _, by
              intro a ha hb
              simp only [List.mem_singleton] at hb
              exact hncall (hb ▸ ha)⟩
          · rw [hs]; simp
      | ok u =>
        simp only
        have hinv1 : SaveInv world imagesDir
            { savedImages := image :: st.savedImages, calls := st.calls ++ [image] } := by
          refine ⟨allSaved_snoc hinv.allSaved hs, ?_, ?_⟩
          · exact List.nodup_append.2 ⟨hinv.nodup, List.nodup_singleton _, by
              intro a ha hb
              simp only [List.mem_singleton] at hb
              exact hncall (hb ▸ ha)⟩
          · intro x
            simp only [List.mem_cons, List.mem_append, List.mem_singleton, hinv.saved x]
            tauto
        refine ⟨?_, (ih _ hinv1).2⟩
        intro st1 h
        obtain ⟨h1, h2⟩ := (ih _ hinv1).1 st1 h
        refine ⟨h1, fun x => ?_⟩
        rw [h2 x]
        simp only [List.mem_cons, List.mem_append, List.mem_singleton]
        tauto

theorem saveWalk_spec (unmarshal : Unmarshal) (world : SaveWorld) (imagesDir : Str)
    (entries : List ManifestEntry) :
    ∀ st : SaveState, SaveInv world imagesDir st →
      (∀ st1, saveWalk unmarshal world imagesDir entries st = (none, st1) →
        SaveInv world imagesDir st1 ∧
          ∀ x, x ∈ st1.calls ↔ x ∈ st.calls ∨ x ∈ scannedImages unmarshal entries) ∧
      (∀ e st1, saveWalk unmarshal world imagesDir entries st = (some e, st1) →
        SaveInv world imagesDir st1 ∨ SaveFailed world imagesDir st1) := by
  induction entries with
  | nil =>
    intro st hinv
    refine ⟨?_, ?_⟩
    · intro st1 h
      simp only [saveWalk, Prod.mk.injEq, true_and] at h
      subst h
      exact ⟨hinv, by simp [scannedImages]⟩
    · intro e st1 h
      simp [saveWalk] at h
  | cons entry rest ih =>
    intro st hinv
    cases entry with
    | walkError err =>
      refine ⟨?_, ?_⟩
      · intro st1 h
        simp [saveWalk] at h
      · intro e st1 h
        simp only [saveWalk, Prod.mk.injEq] at h
        exact Or.inl (h.2 ▸ hinv)
    | dir =>
      simpa only [saveWalk, scannedImages] using ih st hinv
    | file contents =>
      cases contents with
      | error err =>
        refine ⟨?_, ?_⟩
        · intro st1 h
          simp [saveWalk] at h
        · intro e st1 h
          simp only [saveWalk, Prod.mk.injEq] at h
          exact Or.inl (h.2 ▸ hinv)
      | ok contents =>
        have hx := extractLoop_spec world imagesDir (listImagesInFile unmarshal contents) st hinv
        simp only [saveWalk, extractImagesFromFile, scannedImages]
        rcases hloop : extractLoop world imagesDir (listImagesInFile unmarshal contents) st
          with ⟨res, st2⟩
        cases res with
        | some e2 =>
          simp only
          refine ⟨?_, ?_⟩
          · intro st1 h
            simp at h
          · intro e st1 h
            simp only [Prod.mk.injEq] at h
            exact Or.inr (h.2 ▸ hx.2 e2 st2 hloop)
        | none =>
          simp only
          obtain ⟨hinv2, hcalls2⟩ := hx.1 st2 hloop
          refine ⟨?_, (ih st2 hinv2).2⟩
          intro st1 h
          obtain ⟨h1, h2⟩ := (ih st2 hinv2).1 st1 h
          refine ⟨h1, fun x => ?_⟩
          rw [h2 x, hcalls2 x]
          simp only [List.mem_append]
          tauto

theorem saveInv_init (world : SaveWorld) (imagesDir : Str) :
    SaveInv world imagesDir ⟨[], []⟩ := by
  refine ⟨?_, List.nodup_nil, fun x => Iff.rfl⟩
  intro pre image post h
  simp at h

/-- What every run of `SaveImages` ends in: without an error, all calls succeeded and
the calls are the scanned images; with an error, either all calls succeeded or the
last call is the one that failed. -/
theorem SaveImages_spec (unmarshal : Unmarshal) (world : SaveWorld) (imagesDir : Str)
    (upstreamDir : List ManifestEntry) :
    ((SaveImages unmarshal world imagesDir upstreamDir).1 = none →
      SaveInv world imagesDir (SaveImages unmarshal world imagesDir upstreamDir).2 ∧
        ∀ x, x ∈ (SaveImages unmarshal world imagesDir upstreamDir).2.calls ↔
          x ∈ scannedImages unmarshal upstreamDir) ∧
    ((SaveImages unmarshal world imagesDir upstreamDir).1 ≠ none →
      SaveInv world imagesDir (SaveImages unmarshal world imagesDir upstreamDir).2 ∨
        SaveFailed world imagesDir (SaveImages unmarshal world imagesDir upstreamDir).2) := by
  have hw := saveWalk_spec unmarshal world imagesDir upstreamDir ⟨[], []⟩
    (saveInv_init world imagesDir)
  unfold SaveImages
  rcases hrun : saveWalk unmarshal world imagesDir upstreamDir ⟨[], []⟩ with ⟨res, st⟩
  cases res with
  | none =>
    simp only [ne_eq, not_true_eq_false, false_implies, and_true, true_implies]
    obtain ⟨h1, h2⟩ := hw.1 st hrun
    exact ⟨h1, fun x => by simpa using h2 x⟩
  | some e =>
    simp only [reduceCtorEq, false_implies, ne_eq, not_false_eq_true, true_implies, true_and]
    exact hw.2 e st hrun

theorem callCount_cons (image c : Str) (calls : List Str) :
    callCount image (c :: calls) = (if c = image then 1 else 0) + callCount image calls := by
  unfold callCount
  by_cases h : c = image
  · simp [List.filter_cons, h, Nat.add_comm]
  · simp [List.filter_cons, h]

theorem callCount_eq_zero {image : Str} {calls : List Str} (h : image ∉ calls) :
    callCount image calls = 0 := by
  induction calls with
  | nil => rfl
  | cons c cs ih =>
    rw [callCount_cons, ih (fun hm => h (List.mem_cons_of_mem _ hm))]
    have : c ≠ image := fun hc => h (hc ▸ List.mem_cons_self _ _)
    simp [this]

theorem callCount_eq_one {image : Str} {calls : List Str} (hnd : calls.Nodup)
    (h : image ∈ calls) : callCount image calls = 1 := by
  induction calls with
  | nil => cases h
  | cons c cs ih =>
    rw [callCount_cons]
    rw [List.nodup_cons] at hnd
    by_cases hc : c = image
    · subst hc
      rw [callCount_eq_zero hnd.1]
      simp
    · rw [if_neg hc, ih hnd.2 ((List.mem_cons.1 h).resolve_left (fun e => hc e.symm))]

theorem callCount_le_one {calls : List Str} (hnd : calls.Nodup) (image : Str) :
    callCount image calls ≤ 1 := by
  by_cases h : image ∈ calls
  · exact (callCount_eq_one hnd h).le
  · rw [callCount_eq_zero h]; exact Nat.zero_le _

theorem saveInv_or_failed_nodup {world : SaveWorld} {imagesDir : Str} {st : SaveState}
    (h : SaveInv world imagesDir st ∨ SaveFailed world imagesDir st) : st.calls.Nodup := by
  rcases h with h | ⟨pre, image, hc, _, hnd, _, _⟩
  · exact h.nodup
  · rw [hc]; exact hnd

/-- C4. In one run of `SaveImages`, whatever the transfers do, `saveOneImage` is called
at most once with any given image string; and in a run that returns no error it is
called exactly once with each image string that the scan finds, and with no other. -/
theorem SaveImages_calls_saveOneImage_once (unmarshal : Unmarshal) (world : SaveWorld)
    (imagesDir : Str) (upstreamDir : List ManifestEntry) :
    (∀ image, callCount image (SaveImages unmarshal world imagesDir upstreamDir).2.calls ≤ 1) ∧
    ((SaveImages unmarshal world imagesDir upstreamDir).1 = none →
      ∀ image, callCount image (SaveImages unmarshal world imagesDir upstreamDir).2.calls =
        if image ∈ scannedImages unmarshal upstreamDir then 1 else 0) := by
  have hspec := SaveImages_spec unmarshal world imagesDir upstreamDir
  have hnd : (SaveImages unmarshal world imagesDir upstreamDir).2.calls.Nodup := by
    by_cases hres : (SaveImages unmarshal world imagesDir upstreamDir).1 = none
    · exact (hspec.1 hres).1.nodup
    · exact saveInv_or_failed_nodup (hspec.2 hres)
  refine ⟨callCount_le_one hnd, ?_⟩
  intro hres image
  obtain ⟨_, hmem⟩ := hspec.1 hres
  by_cases hin : image ∈ scannedImages unmarshal upstreamDir
  · rw [if_pos hin]
    exact callCount_eq_one hnd ((hmem image).2 hin)
  · rw [if_neg hin]
    exact callCount_eq_zero (fun h => hin ((hmem image).1 h))

/-- C8. If some call of `saveOneImage` in a run of `SaveImages` fails, the run returns
an error, that call is the last one, the failed image is not recorded in `savedImages`,
and `savedImages` holds exactly the images of the calls before it, all of which
succeeded. -/
theorem SaveImages_stops_at_first_failure (unmarshal : Unmarshal) (world : SaveWorld)
    (imagesDir : Str) (upstreamDir : List ManifestEntry) (pre : List Str) (image : Str)
    (post : List Str) (e : String)
    (hcalls : (SaveImages unmarshal world imagesDir upstreamDir).2.calls = pre ++ image :: post)
    (hfail : saveOneImage world pre imagesDir image = .error e) :
    (SaveImages unmarshal world imagesDir upstreamDir).1 ≠ none ∧ post = [] ∧
      image ∉ (SaveImages unmarshal world imagesDir upstreamDir).2.savedImages ∧
      (∀ x, x ∈ (SaveImages unmarshal world imagesDir upstreamDir).2.savedImages ↔ x ∈ pre) ∧
      AllSaved world imagesDir pre := by
  have hspec := SaveImages_spec unmarshal world imagesDir upstreamDir
  have hnot : ¬ SaveInv world imagesDir (SaveImages unmarshal world imagesDir upstreamDir).2 := by
    intro hinv
    have := hinv.allSaved pre image post hcalls
    rw [hfail] at this
    cases this
  have hres : (SaveImages unmarshal world imagesDir upstreamDir).1 ≠ none :=
    fun h => hnot (hspec.1 h).1
  rcases hspec.2 hres with hinv | ⟨pre1, image1, hc, hall, hnd, hsaved, _⟩
  · exact absurd hinv hnot
  · rw [hcalls] at hc
    rcases List.eq_nil_or_concat post with hp | ⟨post1, y, hp⟩
    · subst hp
      have h1 : pre = pre1 := List.append_inj_left' hc rfl
      have h2 : [image] = [image1] := List.append_inj_right' hc rfl
      simp only [List.cons.injEq, and_true] at h2
      subst h1; subst h2
      refine ⟨hres, rfl, ?_, hsaved, hall⟩
      intro hmem
      have hpre := (hsaved image).1 hmem
      exact (List.nodup_append.1 hnd).2.2 hpre (List.mem_singleton_self _)
    · subst hp
      have hc2 : (pre ++ image :: post1) ++ [y] = pre1 ++ [image1] := by
        rw [← hc]; simp
      have h1 : pre ++ image :: post1 = pre1 := List.append_inj_left' hc2 rfl
      have := hall pre image post1 h1.symm
      rw [hfail] at this
      cases this

theorem allPushed_snoc {world : PushWorld} {calls : List PushCall} {c : PushCall}
    (h : AllPushed world calls)
    (hs : CopyFromFileToRegistry world calls c.path c.name c.tag c.digest = .ok ()) :
    AllPushed world (calls ++ [c]) := by
  intro pre x post hsplit
  rcases List.eq_nil_or_concat post with hp | ⟨post1, y, hp⟩
  · subst hp
    have h1 : calls = pre := List.append_inj_left' hsplit rfl
    have h2 : [c] = [x] := List.append_inj_right' hsplit rfl
    simp only [List.cons.injEq, and_true] at h2
    subst h1; subst h2; exact hs
  · subst hp
    have hsplit2 : calls ++ [c] = (pre ++ x :: post1) ++ [y] := by
      rw [hsplit]; simp
    have h1 : calls = pre ++ x :: post1 := List.append_inj_left' hsplit2 rfl
    exact h pre x post1 h1

theorem pushWalk_spec (imageInfo : ImageInfo) (world : PushWorld)
    (options : PushUpstreamImageOptions) (formatRoot : Str) (entries : List WalkEntry) :
    ∀ st : PushState, AllPushed world st.pushes →
      (∀ st1, pushWalk imageInfo world options formatRoot entries st = (none, st1) →
        AllPushed world st1.pushes) ∧
      (∀ e st1, pushWalk imageInfo world options formatRoot entries st = (some e, st1) →
        AllPushed world st1.pushes ∨ PushFailed world st1) := by
  induction entries with
  | nil =>
    intro st hinv
    refine ⟨?_, ?_⟩
    · intro st1 h
      simp only [pushWalk, Prod.mk.injEq, true_and] at h
      exact h ▸ hinv
    · intro e st1 h
      simp [pushWalk] at h
  | cons entry rest ih =>
    intro st hinv
    unfold pushWalk
    cases hinfo : entry.info with
    | error err =>
      simp only
      refine ⟨?_, ?_⟩
      · intro st1 h
        simp at h
      · intro e st1 h
        simp only [Prod.mk.injEq] at h
        exact Or.inl (h.2 ▸ hinv)
    | ok info =>
      simp only
      by_cases hdir : info.IsDir = true
      · simp only [hdir, if_true]
        exact ih st hinv
      · simp only [hdir, Bool.false_eq_true, if_false]
        cases himg : imageInfo options.RegistryHost options.RegistryNamespace
            (stringsSplit (List.drop (formatRoot.length + 1) entry.path) '/') with
        | error err =>
          simp only
          refine ⟨?_, ?_⟩
          · intro st1 h
            simp at h
          · intro e st1 h
            simp only [Prod.mk.injEq] at h
            exact Or.inl (h.2 ▸ hinv)
        | ok rewrittenImage =>
          simp only
          cases hpush : CopyFromFileToRegistry world st.pushes entry.path
              rewrittenImage.NewName rewrittenImage.NewTag rewrittenImage.Digest with
          | error err =>
            simp only
            refine ⟨?_, ?_⟩
            · intro st1 h
              simp at h
            · intro e st1 h
              simp only [Prod.mk.injEq] at h
              obtain ⟨_, h⟩ := h
              subst h
              refine Or.inr ⟨st.pushes, _, rfl, hinv, ?_⟩
              simp only
              rw [hpush]
              simp
          | ok u =>
            simp only
            exact ih _ (allPushed_snoc hinv hpush)

theorem pushFormatDirs_spec (imageInfo : ImageInfo) (world : PushWorld) (fs : BundleFS)
    (options : PushUpstreamImageOptions) (formatDirs : List FileInfo) :
    ∀ st : PushState, AllPushed world st.pushes →
      (∀ st1, pushFormatDirs imageInfo world fs options formatDirs st = (none, st1) →
        AllPushed world st1.pushes) ∧
      (∀ e st1, pushFormatDirs imageInfo world fs options formatDirs st = (some e, st1) →
        AllPushed world st1.pushes ∨ PushFailed world st1) := by
  induction formatDirs with
  | nil =>
    intro st hinv
    refine ⟨?_, ?_⟩
    · intro st1 h
      simp only [pushFormatDirs, Prod.mk.injEq, true_and] at h
      exact h ▸ hinv
    · intro e st1 h
      simp [pushFormatDirs] at h
  | cons f rest ih =>
    intro st hinv
    unfold pushFormatDirs
    by_cases hdir : f.IsDir = true
    · simp only [hdir, Bool.not_true, Bool.false_eq_true, if_false]
      have hw := pushWalk_spec imageInfo world options
        (filepathJoin [options.ImagesDir, f.Name])
        (fs.walk (filepathJoin [options.ImagesDir, f.Name])) st hinv
      rcases hrun : pushWalk imageInfo world options (filepathJoin [options.ImagesDir, f.Name])
        (fs.walk (filepathJoin [options.ImagesDir, f.Name])) st with ⟨res, st2⟩
      cases res with
      | some e2 =>
        simp only
        refine ⟨?_, ?_⟩
        · intro st1 h
          simp at h
        · intro e st1 h
          simp only [Prod.mk.injEq] at h
          exact h.2 ▸ hw.2 e2 st2 hrun
      | none =>
        simp only
        exact ih st2 (hw.1 st2 hrun)
    · simp only [hdir, Bool.not_false, if_true]
      exact ih st hinv

/-- C7. If some call of `CopyFromFileToRegistry` in a run of `TagAndPushUpstreamImages`
fails, the run returns a nil slice together with an error, and that call is the last
one: no push is attempted for a later entry of the same or of a later format
directory. -/
theorem TagAndPushUpstreamImages_fails_fast (imageInfo : ImageInfo) (world : PushWorld)
    (fs : BundleFS) (options : PushUpstreamImageOptions) (pre : List PushCall) (c : PushCall)
    (post : List PushCall) (e : String)
    (hpushes : (TagAndPushUpstreamImages imageInfo world fs options).pushes = pre ++ c :: post)
    (hfail : CopyFromFileToRegistry world pre c.path c.name c.tag c.digest = .error e) :
    (TagAndPushUpstreamImages imageInfo world fs options).images = none ∧
      (TagAndPushUpstreamImages imageInfo world fs options).err ≠ none ∧ post = [] := by
  revert hpushes
  unfold TagAndPushUpstreamImages
  cases hread : fs.readDir options.ImagesDir with
  | error err =>
    intro hpushes
    simp at hpushes
  | ok formatDirs =>
    simp only
    have hspec := pushFormatDirs_spec imageInfo world fs options formatDirs ⟨[], []⟩
      (by intro pre c post h; simp at h)
    rcases hrun : pushFormatDirs imageInfo world fs options formatDirs ⟨[], []⟩ with ⟨res, st⟩
    cases res with
    | none =>
      simp only
      intro hpushes
      have := hspec.1 st hrun pre c post hpushes
      rw [hfail] at this
      cases this
    | some err =>
      simp only
      intro hpushes
      refine ⟨trivial, by simp, ?_⟩
      rcases hspec.2 err st hrun with hall | ⟨pre1, c1, hc, hall, _⟩
      · have := hall pre c post hpushes
        rw [hfail] at this
        cases this
      · rw [hpushes] at hc
        rcases List.eq_nil_or_concat post with hp | ⟨post1, y, hp⟩
        · exact hp
        · subst hp
          have hc2 : (pre ++ c :: post1) ++ [y] = pre1 ++ [c1] := by
            rw [← hc]; simp
          have h1 : pre ++ c :: post1 = pre1 := List.append_inj_left' hc2 rfl
          have := hall pre c post1 h1.symm
          rw [hfail] at this
          cases this

theorem SaveImages_calls_saveOneImage_once_witness :
    (SaveImages sampleUnmarshal pullSucceeds "/images".toList sampleTree).1 = none ∧
      ∀ image, callCount image
          (SaveImages sampleUnmarshal pullSucceeds "/images".toList sampleTree).2.calls =
        if image ∈ scannedImages sampleUnmarshal sampleTree then 1 else 0 :=
  ⟨by decide,
    (SaveImages_calls_saveOneImage_once sampleUnmarshal pullSucceeds "/images".toList
      sampleTree).2 (by decide)⟩

theorem SaveImages_stops_at_first_failure_witness :
    (SaveImages sampleUnmarshal pullOfDbFails "/images".toList sampleTree).2.calls
        = ["app:1".toList] ++ "db:2".toList :: [] ∧
      (SaveImages sampleUnmarshal pullOfDbFails "/images".toList sampleTree).1 ≠ none ∧
      (SaveImages sampleUnmarshal pullOfDbFails "/images".toList sampleTree).2.savedImages
        = ["app:1".toList] :=
  ⟨by decide,
    (SaveImages_stops_at_first_failure sampleUnmarshal pullOfDbFails "/images".toList sampleTree
      ["app:1".toList] "db:2".toList [] "failed to copy image" (by decide) (by decide)).1,
    by decide⟩

theorem TagAndPushUpstreamImages_fails_fast_witness :
    (TagAndPushUpstreamImages sampleImageInfo secondPushFails sampleBundle sampleOptions).pushes
        = [⟨"/images/docker-archive/app/1".toList, "myregistry.io/myns/app".toList,
            "1".toList, []⟩] ++
          ⟨"/images/docker-archive/db/2".toList, "myregistry.io/myns/db".toList,
            "2".toList, []⟩ :: [] ∧
      (TagAndPushUpstreamImages sampleImageInfo secondPushFails sampleBundle sampleOptions).images
        = none :=
  ⟨by decide,
    (TagAndPushUpstreamImages_fails_fast sampleImageInfo secondPushFails sampleBundle
      sampleOptions [⟨"/images/docker-archive/app/1".toList, "myregistry.io/myns/app".toList,
        "1".toList, []⟩]
      ⟨"/images/docker-archive/db/2".toList, "myregistry.io/myns/db".toList, "2".toList, []⟩
      [] "failed to copy image" (by decide) (by decide)).1⟩

/-! ## The result of a run of `TagAndPushUpstreamImages` without error -/

theorem pushWalk_images (imageInfo : ImageInfo) (world : PushWorld)
    (options : PushUpstreamImageOptions) (formatRoot : Str) (entries : List WalkEntry) :
    ∀ st st1 : PushState,
      pushWalk imageInfo world options formatRoot entries st = (none, st1) →
      ∃ images, st1.images = st.images ++ images ∧
        List.Forall₂ (Rewritten imageInfo options)
          ((walkFiles entries).map (fun path => (formatRoot, path))) images := by
  induction entries with
  | nil =>
    intro st st1 h
    simp only [pushWalk, Prod.mk.injEq, true_and] at h
    subst h
    exact ⟨[], by simp, by simp [walkFiles]⟩
  | cons entry rest ih =>
    intro st st1 h
    unfold pushWalk at h
    unfold walkFiles
    cases hinfo : entry.info with
    | error err =>
      rw [hinfo] at h
      simp at h
    | ok info =>
      rw [hinfo] at h
      simp only at h ⊢
      by_cases hdir : info.IsDir = true
      · simp only [hdir, if_true] at h ⊢
        exact ih st st1 h
      · simp only [hdir, Bool.false_eq_true, if_false] at h ⊢
        cases himg : imageInfo options.RegistryHost options.RegistryNamespace
            (stringsSplit (List.drop (formatRoot.length + 1) entry.path) '/') with
        | error err =>
          rw [himg] at h
          simp at h
        | ok rewrittenImage =>
          rw [himg] at h
          simp only at h
          cases hpush : CopyFromFileToRegistry world st.pushes entry.path
              rewrittenImage.NewName rewrittenImage.NewTag rewrittenImage.Digest with
          | error err =>
            rw [hpush] at h
            simp at h
          | ok u =>
            rw [hpush] at h
            simp only at h
            obtain ⟨images, himages, hall⟩ := ih _ st1 h
            refine ⟨rewrittenImage :: images, ?_, ?_⟩
            · rw [himages]; simp
            · simp only [List.map_cons]
              exact List.Forall₂.cons himg hall

theorem pushFormatDirs_images (imageInfo : ImageInfo) (world : PushWorld) (fs : BundleFS)
    (options : PushUpstreamImageOptions) (formatDirs : List FileInfo) :
    ∀ st st1 : PushState,
      pushFormatDirs imageInfo world fs options formatDirs st = (none, st1) →
      ∃ images, st1.images = st.images ++ images ∧
        List.Forall₂ (Rewritten imageInfo options) (regularFiles fs options formatDirs)
          images := by
  induction formatDirs with
  | nil =>
    intro st st1 h
    simp only [pushFormatDirs, Prod.mk.injEq, true_and] at h
    subst h
    exact ⟨[], by simp, by simp [regularFiles]⟩
  | cons f rest ih =>
    intro st st1 h
    unfold pushFormatDirs at h
    unfold regularFiles
    by_cases hdir : f.IsDir = true
    · simp only [hdir, Bool.not_true, Bool.false_eq_true, if_false, if_true] at h ⊢
      rcases hrun : pushWalk imageInfo world options (filepathJoin [options.ImagesDir, f.Name])
        (fs.walk (filepathJoin [options.ImagesDir, f.Name])) st with ⟨res, st2⟩
      rw [hrun] at h
      cases res with
      | some e =>
        simp at h
      | none =>
        simp only at h
        obtain ⟨images1, h1, hall1⟩ := pushWalk_images imageInfo world options _ _ st st2 hrun
        obtain ⟨images2, h2, hall2⟩ := ih st2 st1 h
        refine ⟨images1 ++ images2, ?_, ?_⟩
        · rw [h2, h1]; simp
        · exact List.rel_append hall1 hall2
    · simp only [hdir, Bool.not_false, if_true, Bool.false_eq_true, if_false] at h ⊢
      exact ih st st1 h

theorem regularFiles_of_no_dir (fs : BundleFS) (options : PushUpstreamImageOptions)
    (formatDirs : List FileInfo) (h : ∀ f ∈ formatDirs, f.IsDir = false) :
    regularFiles fs options formatDirs = [] := by
  induction formatDirs with
  | nil => rfl
  | cons f rest ih =>
    unfold regularFiles
    rw [h f (List.mem_cons_self _ _)]
    simp only [Bool.false_eq_true, if_false]
    exact ih (fun g hg => h g (List.mem_cons_of_mem _ hg))

/-- C11 does not hold as stated: in a bundle where the walk reports an error for the
second archive, every push that is made succeeds, one regular file is found under the
format directory, and the function returns a nil slice and an error instead of one
image for that file. -/
theorem TagAndPushUpstreamImages_pushes_succeed_counterexample :
    (∀ before src dest, pushSucceeds before src dest = .ok ()) ∧
      regularFiles unreadableBundle sampleOptions [⟨"docker-archive".toList, true⟩]
        = [("/images/docker-archive".toList, "/images/docker-archive/app/1".toList)] ∧
      (TagAndPushUpstreamImages sampleImageInfo pushSucceeds unreadableBundle sampleOptions).pushes
        = [⟨"/images/docker-archive/app/1".toList, "myregistry.io/myns/app".toList,
            "1".toList, []⟩] ∧
      (TagAndPushUpstreamImages sampleImageInfo pushSucceeds unreadableBundle sampleOptions).images
        = none ∧
      (TagAndPushUpstreamImages sampleImageInfo pushSucceeds unreadableBundle sampleOptions).err
        = some "failed to walk images dir" := by
  refine ⟨fun _ _ _ => rfl, by decide, by decide, by decide, by decide⟩

/-- C11, amended. When `TagAndPushUpstreamImages` returns no error (the images
directory is read, no walk reports an error, every path is decoded and every push
succeeds), it returns exactly one rewritten image per regular file found under the
format subdirectories of the images directory, in the order of the walk: format
directories in listing order, files in walk order within each; entries of the images
directory that are not directories produce no image. -/
theorem TagAndPushUpstreamImages_images (imageInfo : ImageInfo) (world : PushWorld)
    (fs : BundleFS) (options : PushUpstreamImageOptions)
    (herr : (TagAndPushUpstreamImages imageInfo world fs options).err = none) :
    ∃ formatDirs images, fs.readDir options.ImagesDir = .ok formatDirs ∧
      (TagAndPushUpstreamImages imageInfo world fs options).images = some images ∧
      List.Forall₂ (Rewritten imageInfo options) (regularFiles fs options formatDirs) images ∧
      ((∀ f ∈ formatDirs, f.IsDir = false) → images = []) := by
  revert herr
  unfold TagAndPushUpstreamImages
  cases hread : fs.readDir options.ImagesDir with
  | error err =>
    intro herr
    simp at herr
  | ok formatDirs =>
    simp only
    rcases hrun : pushFormatDirs imageInfo world fs options formatDirs ⟨[], []⟩ with ⟨res, st⟩
    cases res with
    | some err =>
      intro herr
      simp at herr
    | none =>
      intro _
      obtain ⟨images, himages, hall⟩ :=
        pushFormatDirs_images imageInfo world fs options formatDirs _ st hrun
      simp only [List.nil_append] at himages
      refine ⟨formatDirs, images, rfl, by simp [himages], hall, ?_⟩
      intro hno
      rw [regularFiles_of_no_dir fs options formatDirs hno] at hall
      cases hall
      rfl

theorem TagAndPushUpstreamImages_images_witness :
    ∃ formatDirs images, sampleBundle.readDir sampleOptions.ImagesDir = .ok formatDirs ∧
      (TagAndPushUpstreamImages sampleImageInfo pushSucceeds sampleBundle sampleOptions).images
        = some images ∧
      List.Forall₂ (Rewritten sampleImageInfo sampleOptions)
        (regularFiles sampleBundle sampleOptions formatDirs) images ∧
      ((∀ f ∈ formatDirs, f.IsDir = false) → images = []) :=
  TagAndPushUpstreamImages_images sampleImageInfo pushSucceeds sampleBundle sampleOptions
    (by decide)

/-! ## Reversing the bundle path -/

/-- A tag-form and a digest-form valid reference with the same bundle path: the name of
the first is the name of the second followed by the digest algorithm, and its tag is
the hex part of the digest. -/
theorem bundlePath_cross_form (formatPrefix : Str) (r1 r2 : ImageRef)
    (hv1 : r1.Valid) (hv2 : r2.Valid)
    (hpath : r1.pathInBundle formatPrefix = r2.pathInBundle formatPrefix)
    (h1 : r1.Digest = []) (h2 : r2.Tag = []) :
    ∃ algorithm hex, r2.Digest = algorithm ++ ':' :: hex ∧
      r1.Name = r2.Name ++ '/' :: algorithm ∧ r1.Tag = hex := by
  obtain ⟨t1, n1, hr1, hd1, _, hp1⟩ := pathInBundle_eq_Clean r1 hv1 formatPrefix
  obtain ⟨t2, n2, hr2, _, ht2, hp2⟩ := pathInBundle_eq_Clean r2 hv2 formatPrefix
  rw [hp1, hp2] at hpath
  have helems : r1.Name.splitOn '/' ++ t1 = r2.Name.splitOn '/' ++ t2 :=
    Clean_stringsJoin_injective (prefixElems formatPrefix) _ _
      (prefixElems_sep_free formatPrefix)
      (fun c hc => (List.mem_append.1 hc).elim (hv1.1 c) (hr1 c))
      (fun c hc => (List.mem_append.1 hc).elim (hv2.1 c) (hr2 c))
      (by simp [n1]) (by simp [n2]) hpath
  rcases hv2.2 with ⟨_, hreal⟩ | ⟨_, alg, hex, hd, ha, hh, _, _⟩
  · exact absurd h2 hreal.1
  · refine ⟨alg, hex, hd, ?_, ?_⟩
    all_goals
      rw [hd1 h1, ht2 h2, hd, splitOn_two ':' alg hex ha hh] at helems
      have hsplit : r1.Name.splitOn '/' ++ [r1.Tag] = (r2.Name.splitOn '/' ++ [alg]) ++ [hex] := by
        rw [helems]; simp
    · have hleft := List.append_inj_left' hsplit rfl
      rw [← stringsJoin_splitOn r1.Name, hleft,
        stringsJoin_append _ _ (splitOn_ne_nil '/' r2.Name) (by simp), stringsJoin_splitOn,
        stringsJoin_single]
    · have hright := List.append_inj_right' hsplit rfl
      simpa using hright

/-- C12 does not hold as stated: `x.com/a/sha256:0123...` is a valid tag-form reference
and `x.com/a@sha256:0123...` a valid digest-form reference, their `(Name, Tag, Digest)`
differ, and both get the bundle path `docker-archive/x.com/a/sha256/0123...`. -/
theorem pathInBundle_reversible_counterexample :
    imageRefImage
        "x.com/a/sha256:0123456789abcdef0123456789abcdef0123456789abcdef0123456789abcdef".toList
      = .ok ⟨"x.com".toList, "x.com/a/sha256".toList,
          "0123456789abcdef0123456789abcdef0123456789abcdef0123456789abcdef".toList, []⟩ ∧
    imageRefImage
        "x.com/a@sha256:0123456789abcdef0123456789abcdef0123456789abcdef0123456789abcdef".toList
      = .ok ⟨"x.com".toList, "x.com/a".toList, [],
          "sha256:0123456789abcdef0123456789abcdef0123456789abcdef0123456789abcdef".toList⟩ ∧
    ImageRef.pathInBundle ⟨"x.com".toList, "x.com/a/sha256".toList,
        "0123456789abcdef0123456789abcdef0123456789abcdef0123456789abcdef".toList, []⟩
        dockerArchive
      = "docker-archive/x.com/a/sha256/0123456789abcdef0123456789abcdef0123456789abcdef0123456789abcdef".toList ∧
    ImageRef.pathInBundle ⟨"x.com".toList, "x.com/a".toList, [],
        "sha256:0123456789abcdef0123456789abcdef0123456789abcdef0123456789abcdef".toList⟩
        dockerArchive
      = "docker-archive/x.com/a/sha256/0123456789abcdef0123456789abcdef0123456789abcdef0123456789abcdef".toList := by
  refine ⟨by decide, by decide, by decide, by decide⟩

/-- C12, amended. For a fixed format prefix the bundle addressing is reversible within
each form: two references returned by `imageRefImage` that are both in tag form or
both in digest form and have the same path have the same `Name`, `Tag` and `Digest`.
A tag-form and a digest-form reference have the same path only when the name of the
tag-form one is the name of the other followed by `/` and the digest algorithm, and its
tag is the hex part of the digest. -/
theorem pathInBundle_reversible_within_form (formatPrefix image1 image2 : Str)
    (ref1 ref2 : ImageRef)
    (h1 : imageRefImage image1 = .ok ref1) (h2 : imageRefImage image2 = .ok ref2)
    (hpath : ref1.pathInBundle formatPrefix = ref2.pathInBundle formatPrefix) :
    ((ref1.Digest = [] ↔ ref2.Digest = []) →
      ref1.Name = ref2.Name ∧ ref1.Tag = ref2.Tag ∧ ref1.Digest = ref2.Digest) ∧
    (ref1.Digest = [] → ref2.Digest ≠ [] →
      ∃ algorithm hex, ref2.Digest = algorithm ++ ':' :: hex ∧
        ref1.Name = ref2.Name ++ '/' :: algorithm ∧ ref1.Tag = hex) := by
  have hv1 := imageRefImage_valid h1
  have hv2 := imageRefImage_valid h2
  have htag : ∀ r : ImageRef, r.Valid → r.Digest ≠ [] → r.Tag = [] := by
    intro r hv hd
    rcases hv.2 with ⟨hd0, _⟩ | ⟨ht, _⟩
    · exact absurd hd0 hd
    · exact ht
  have hinj := bundlePath_injective_of_valid formatPrefix ref1 ref2 hv1 hv2 hpath
  refine ⟨?_, ?_⟩
  · intro hform
    by_cases hd1 : ref1.Digest = []
    · have hd2 := hform.1 hd1
      obtain ⟨hn, ht⟩ := hinj.1 hd1 hd2
      exact ⟨hn, ht, hd1.trans hd2.symm⟩
    · have hd2 : ref2.Digest ≠ [] := fun h => hd1 (hform.2 h)
      have ht1 := htag ref1 hv1 hd1
      have ht2 := htag ref2 hv2 hd2
      obtain ⟨hn, hd⟩ := hinj.2 ht1 ht2
      exact ⟨hn, ht1.trans ht2.symm, hd⟩
  · intro hd1 hd2
    exact bundlePath_cross_form formatPrefix ref1 ref2 hv1 hv2 hpath hd1 (htag ref2 hv2 hd2)

theorem pathInBundle_reversible_within_form_witness :
    ∃ algorithm hex,
      (ImageRef.mk "x.com".toList "x.com/a".toList []
          "sha256:0123456789abcdef0123456789abcdef0123456789abcdef0123456789abcdef".toList).Digest
        = algorithm ++ ':' :: hex ∧
      (ImageRef.mk "x.com".toList "x.com/a/sha256".toList
          "0123456789abcdef0123456789abcdef0123456789abcdef0123456789abcdef".toList []).Name
        = (ImageRef.mk "x.com".toList "x.com/a".toList []
            "sha256:0123456789abcdef0123456789abcdef0123456789abcdef0123456789abcdef".toList).Name
          ++ '/' :: algorithm ∧
      (ImageRef.mk "x.com".toList "x.com/a/sha256".toList
          "0123456789abcdef0123456789abcdef0123456789abcdef0123456789abcdef".toList []).Tag
        = hex :=
  (pathInBundle_reversible_within_form dockerArchive
    "x.com/a/sha256:0123456789abcdef0123456789abcdef0123456789abcdef0123456789abcdef".toList
    "x.com/a@sha256:0123456789abcdef0123456789abcdef0123456789abcdef0123456789abcdef".toList
    ⟨"x.com".toList, "x.com/a/sha256".toList,
      "0123456789abcdef0123456789abcdef0123456789abcdef0123456789abcdef".toList, []⟩
    ⟨"x.com".toList, "x.com/a".toList, [],
      "sha256:0123456789abcdef0123456789abcdef0123456789abcdef0123456789abcdef".toList⟩
    (by decide) (by decide) (by decide)).2 rfl (by decide)

/-! ## The documents that `listImagesInFile` decodes -/

theorem listImagesInFile_eq (unmarshal : Unmarshal) (contents : Str) :
    listImagesInFile unmarshal contents =
      ((bytesSplit contents yamlDelimiter).map (imagesOfDoc unmarshal)).flatten := by
  unfold listImagesInFile
  simp only
  rw [foldl_images]
  simp

theorem bytesSplitAux_cons (sep acc : Str) (c : Char) (cs : Str) :
    bytesSplitAux sep 0 acc (c :: cs) =
      if sep.isPrefixOf (c :: cs) then acc.reverse :: bytesSplitAux sep (sep.length - 1) [] cs
      else bytesSplitAux sep 0 (c :: acc) cs := by
  rw [bytesSplitAux]

theorem bytesSplitAux_skip (sep : Str) (x : Str) :
    ∀ acc b : Str, bytesSplitAux sep x.length acc (x ++ b) = bytesSplitAux sep 0 acc b := by
  induction x with
  | nil => intro acc b; rfl
  | cons c cs ih =>
    intro acc b
    simp only [List.length_cons, List.cons_append, bytesSplitAux]
    exact ih acc b

theorem bytesSplitAux_no_sep (sep : Str) :
    ∀ s acc : Str, (∀ s1 s2, s = s1 ++ s2 → ¬ sep <+: s2) →
      bytesSplitAux sep 0 acc s = [acc.reverse ++ s] := by
  intro s
  induction s with
  | nil => intro acc _; simp [bytesSplitAux]
  | cons c cs ih =>
    intro acc h
    have hnot : sep.isPrefixOf (c :: cs) = false := by
      rw [Bool.eq_false_iff]
      intro hp
      exact h [] (c :: cs) rfl (List.isPrefixOf_iff_prefix.1 hp)
    rw [bytesSplitAux_cons, hnot]
    simp only [Bool.false_eq_true, if_false]
    rw [ih (c :: acc) (fun s1 s2 hs => h (c :: s1) s2 (by rw [hs]; rfl))]
    simp

theorem bytesSplitAux_first (sep : Str) (hsep : sep ≠ []) (b : Str) :
    ∀ a acc : Str, (∀ a1 a2, a = a1 ++ a2 → a2 ≠ [] → ¬ sep <+: a2 ++ sep ++ b) →
      bytesSplitAux sep 0 acc (a ++ sep ++ b) = (acc.reverse ++ a) :: bytesSplitAux sep 0 [] b := by
  intro a
  induction a with
  | nil =>
    intro acc _
    obtain ⟨c, rest, rfl⟩ := List.exists_cons_of_ne_nil hsep
    have hp : (c :: rest).isPrefixOf (c :: (rest ++ b)) = true :=
      List.isPrefixOf_iff_prefix.2 ⟨b, rfl⟩
    simp only [List.nil_append, List.cons_append]
    rw [bytesSplitAux_cons, if_pos hp]
    simp only [List.length_cons, Nat.add_sub_cancel, List.append_nil]
    rw [bytesSplitAux_skip]
  | cons c cs ih =>
    intro acc h
    have hnot : sep.isPrefixOf (c :: (cs ++ sep ++ b)) = false := by
      rw [Bool.eq_false_iff]
      intro hp
      exact h [] (c :: cs) rfl (by simp) (by simpa using List.isPrefixOf_iff_prefix.1 hp)
    simp only [List.cons_append]
    rw [bytesSplitAux_cons, hnot]
    simp only [Bool.false_eq_true, if_false]
    rw [ih (c :: acc) (fun a1 a2 ha hne => h (c :: a1) a2 (by rw [ha]; rfl) hne)]
    simp

theorem delimiter_starts_nowhere {sep s : Str} (h : ¬ sep <:+: s) :
    ∀ s1 s2, s = s1 ++ s2 → ¬ sep <+: s2 := by
  rintro s1 s2 rfl ⟨t, rfl⟩
  exact h ⟨s1, t, by simp⟩

theorem first_delimiter {a : Str} (h : ¬ yamlDelimiter <:+: a ++ ['\n', '-', '-', '-'])
    (b : Str) : ∀ a1 a2, a = a1 ++ a2 → a2 ≠ [] → ¬ yamlDelimiter <+: a2 ++ yamlDelimiter ++ b := by
  rintro a1 a2 rfl hne hp
  have hcut : a2 ++ yamlDelimiter ++ b = (a2 ++ ['\n', '-', '-', '-']) ++ ('\n' :: b) := by
    simp [yamlDelimiter]
  rw [hcut] at hp
  have hlen : yamlDelimiter.length ≤ (a2 ++ ['\n', '-', '-', '-']).length := by
    have : 0 < a2.length := List.length_pos.2 hne
    simp only [yamlDelimiter, List.length_cons, List.length_nil, List.length_append]
    omega
  obtain ⟨t, ht⟩ := List.prefix_of_prefix_length_le hp (List.prefix_append _ _) hlen
  exact h ⟨a1, t, by rw [List.append_assoc a1, ht, List.append_assoc]⟩

theorem bytesSplitAux_succ (sep acc : Str) (skip : Nat) (c : Char) (cs : Str) :
    bytesSplitAux sep (skip + 1) acc (c :: cs) = bytesSplitAux sep skip acc cs := by
  rw [bytesSplitAux]

/-- The first piece starts with what has been read of it. -/
theorem bytesSplitAux_head (sep : Str) :
    ∀ s acc : Str, ∃ doc docs, bytesSplitAux sep 0 acc s = (acc.reverse ++ doc) :: docs := by
  intro s
  induction s with
  | nil => intro acc; exact ⟨[], [], by simp [bytesSplitAux]⟩
  | cons c cs ih =>
    intro acc
    rw [bytesSplitAux_cons]
    split_ifs
    · exact ⟨[], bytesSplitAux sep (sep.length - 1) [] cs, by simp⟩
    · obtain ⟨doc, docs, h⟩ := ih (c :: acc)
      exact ⟨c :: doc, docs, by rw [h]; simp⟩

theorem dash_not_delimiter (s : Str) : yamlDelimiter.isPrefixOf ('-' :: s) = false := by
  simp [yamlDelimiter, List.isPrefixOf]

/-- A content that starts with the line `---`: the first piece starts with `---`. -/
theorem bytesSplit_first_line (rest : Str) :
    ∃ doc docs, bytesSplit (['-', '-', '-', '\n'] ++ rest) yamlDelimiter
      = (['-', '-', '-'] ++ doc) :: docs := by
  unfold bytesSplit
  simp only [List.cons_append, List.nil_append]
  rw [bytesSplitAux_cons, dash_not_delimiter, bytesSplitAux_cons, dash_not_delimiter,
    bytesSplitAux_cons, dash_not_delimiter]
  simp only [Bool.false_eq_true, if_false]
  obtain ⟨doc, docs, h⟩ := bytesSplitAux_head yamlDelimiter ('\n' :: rest) ['-', '-', '-']
  exact ⟨doc, docs, by rw [h]; rfl⟩

/-- A content that ends with the line `---` without a newline: the last piece ends with
`---`, also when the newline before it closes a delimiter. -/
theorem bytesSplitAux_last :
    ∀ (rest : Str) (skip : Nat) (acc : Str), skip ≤ rest.length + 1 →
      ∃ docs doc, bytesSplitAux yamlDelimiter skip acc (rest ++ ['\n', '-', '-', '-'])
        = docs ++ [doc ++ ['-', '-', '-']] := by
  intro rest
  induction rest with
  | nil =>
    intro skip acc hskip
    rcases skip with _ | _ | skip
    · exact ⟨[], acc.reverse ++ ['\n'], by
        simp [bytesSplitAux, yamlDelimiter, List.isPrefixOf]⟩
    · exact ⟨[], acc.reverse, by
        simp [bytesSplitAux, yamlDelimiter, List.isPrefixOf]⟩
    · simp at hskip
  | cons c cs ih =>
    intro skip acc hskip
    rcases skip with _ | skip
    · simp only [List.cons_append]
      rw [bytesSplitAux_cons]
      split_ifs with hp
      · have hlen : 3 ≤ cs.length := by
          rcases cs with _ | ⟨x, _ | ⟨y, _ | ⟨z, cs1⟩⟩⟩
          · simp [yamlDelimiter, List.isPrefixOf] at hp
          · simp [yamlDelimiter, List.isPrefixOf] at hp
          · simp [yamlDelimiter, List.isPrefixOf] at hp
          · simp
        obtain ⟨docs, doc, h⟩ := ih (yamlDelimiter.length - 1) []
          (by simp only [yamlDelimiter, List.length_cons, List.length_nil]; omega)
        exact ⟨acc.reverse :: docs, doc, by rw [h]; simp⟩
      · exact ih 0 (c :: acc) (Nat.zero_le _)
    · simp only [List.cons_append]
      rw [bytesSplitAux_succ]
      exact ih skip acc (by simp only [List.length_cons] at hskip; omega)

/-- C13 does not hold as stated: a delimiter line that is the first line, the last line
without a trailing newline, or that follows another delimiter line, is not a split
point of `listImagesInFile`; it stays in the text of the document that is decoded,
where the split by lines gives an empty document before, after or between. -/
theorem listImagesInFile_delimiter_lines_counterexample :
    listImagesInFile echoUnmarshal "a\n---\nb".toList = ["a".toList, "b".toList] ∧
      documentsByLines "a\n---\nb".toList = ["a".toList, "b".toList] ∧
    listImagesInFile echoUnmarshal "---\na".toList = ["---\na".toList] ∧
      documentsByLines "---\na".toList = [[], "a".toList] ∧
    listImagesInFile echoUnmarshal "a\n---".toList = ["a\n---".toList] ∧
      documentsByLines "a\n---".toList = ["a".toList, []] ∧
    listImagesInFile echoUnmarshal "a\n---\n---\nb".toList = ["a".toList, "---\nb".toList] ∧
      documentsByLines "a\n---\n---\nb".toList = ["a".toList, [], "b".toList] := by
  refine ⟨by decide, by decide, by decide, by decide, by decide, by decide, by decide,
    by decide⟩

/-- C13, amended. `listImagesInFile` splits the file content at the occurrences of the
five bytes `"\n---\n"`, found from the left and without overlap: a content without an
occurrence is one document, and a content `a ++ "\n---\n" ++ b` whose first occurrence
is the one after `a` has `a` as its first document, followed by the documents of `b`;
the images are those of the documents in this order. When the content starts with
`"---\n"`, the first document starts with `---`: the first line is not a split point.
When the content ends with `"\n---"`, the last document ends with `---`: the last line
is not a split point. A line `---` directly after the first split point is not a split
point: it starts the second document. So `"a\n---\n---\nb"` has the documents `a` and
`"---\nb"`, `"---\n---\na"` has `---` and `a`, and `"a\n---\n---\n---\nb"` has `a`, `---`
and `b`. -/
theorem listImagesInFile_documents (unmarshal : Unmarshal) :
    (∀ contents, ¬ yamlDelimiter <:+: contents →
      bytesSplit contents yamlDelimiter = [contents] ∧
        listImagesInFile unmarshal contents = imagesOfDoc unmarshal contents) ∧
    (∀ a b, ¬ yamlDelimiter <:+: a ++ ['\n', '-', '-', '-'] →
      bytesSplit (a ++ yamlDelimiter ++ b) yamlDelimiter = a :: bytesSplit b yamlDelimiter ∧
        listImagesInFile unmarshal (a ++ yamlDelimiter ++ b) =
          imagesOfDoc unmarshal a ++ listImagesInFile unmarshal b) ∧
    (∀ rest, ∃ doc docs, bytesSplit (['-', '-', '-', '\n'] ++ rest) yamlDelimiter
      = (['-', '-', '-'] ++ doc) :: docs) ∧
    (∀ rest, ∃ docs doc, bytesSplit (rest ++ ['\n', '-', '-', '-']) yamlDelimiter
      = docs ++ [doc ++ ['-', '-', '-']]) ∧
    (∀ a b, ¬ yamlDelimiter <:+: a ++ ['\n', '-', '-', '-'] →
      ∃ doc docs, bytesSplit (a ++ yamlDelimiter ++ (['-', '-', '-', '\n'] ++ b)) yamlDelimiter
        = a :: (['-', '-', '-'] ++ doc) :: docs) ∧
    bytesSplit "a\n---\n---\nb".toList yamlDelimiter = ["a".toList, "---\nb".toList] ∧
    bytesSplit "---\n---\na".toList yamlDelimiter = ["---".toList, "a".toList] ∧
    bytesSplit "a\n---\n---\n---\nb".toList yamlDelimiter
      = ["a".toList, "---".toList, "b".toList] := by
  have hfirst : ∀ a b, ¬ yamlDelimiter <:+: a ++ ['\n', '-', '-', '-'] →
      bytesSplit (a ++ yamlDelimiter ++ b) yamlDelimiter
        = a :: bytesSplit b yamlDelimiter := by
    intro a b h
    unfold bytesSplit
    rw [bytesSplitAux_first yamlDelimiter (by decide) b a [] (first_delimiter h b)]
    simp
  refine ⟨?_, ?_, bytesSplit_first_line, ?_, ?_, by decide, by decide, by decide⟩
  rotate_left 2
  · intro rest
    exact bytesSplitAux_last rest 0 [] (Nat.zero_le _)
  · intro a b h
    obtain ⟨doc, docs, hd⟩ := bytesSplit_first_line b
    exact ⟨doc, docs, by rw [hfirst a _ h, hd]⟩
  · intro contents h
    have hs : bytesSplit contents yamlDelimiter = [contents] := by
      unfold bytesSplit
      rw [bytesSplitAux_no_sep yamlDelimiter contents [] (delimiter_starts_nowhere h)]
      simp
    refine ⟨hs, ?_⟩
    rw [listImagesInFile_eq, hs]
    simp
  · intro a b h
    have hs : bytesSplit (a ++ yamlDelimiter ++ b) yamlDelimiter
        = a :: bytesSplit b yamlDelimiter := by
      unfold bytesSplit
      rw [bytesSplitAux_first yamlDelimiter (by decide) b a [] (first_delimiter h b)]
      simp
    refine ⟨hs, ?_⟩
    rw [listImagesInFile_eq, hs, listImagesInFile_eq]
    simp

theorem listImagesInFile_documents_witness :
    (bytesSplit "hello world".toList yamlDelimiter = ["hello world".toList] ∧
        listImagesInFile sampleUnmarshal "hello world".toList
          = imagesOfDoc sampleUnmarshal "hello world".toList) ∧
      (bytesSplit ("image: app:1".toList ++ yamlDelimiter ++ "image: db:2".toList) yamlDelimiter
          = "image: app:1".toList :: bytesSplit "image: db:2".toList yamlDelimiter ∧
        listImagesInFile sampleUnmarshal
            ("image: app:1".toList ++ yamlDelimiter ++ "image: db:2".toList)
          = imagesOfDoc sampleUnmarshal "image: app:1".toList
            ++ listImagesInFile sampleUnmarshal "image: db:2".toList) :=
  ⟨(listImagesInFile_documents sampleUnmarshal).1 "hello world".toList (by decide),
    (listImagesInFile_documents sampleUnmarshal).2.1 "image: app:1".toList
      "image: db:2".toList (by decide)⟩

/-! ## Containers without an image -/

theorem saveOneImage_empty (world : SaveWorld) (before : List Str) (imagesDir : Str) :
    saveOneImage world before imagesDir [] = .error "failed to parse image ref" := by
  have h : imageRefImage [] = .error "failed to parse image name" := by decide
  simp [saveOneImage, h]

/-- C14 does not hold as stated: for a pod-shaped document whose container has no
`image` field, `listImagesInFile` returns the empty string, and `SaveImages` calls
`saveOneImage` with it and returns an error. -/
theorem listImagesInFile_empty_image_counterexample :
    listImagesInFile manifestUnmarshal noImageManifest = [[]] ∧
      (SaveImages manifestUnmarshal pullSucceeds "/images".toList
          [.file (.ok noImageManifest)]).2.calls = [[]] ∧
      (SaveImages manifestUnmarshal pullSucceeds "/images".toList
          [.file (.ok noImageManifest)]).1 = some "failed to walk upstream dir" := by
  refine ⟨by decide, by decide, by decide⟩

/-- C14, amended. `listImagesInFile` returns the `image` field of every container of
every document that decodes, as it is: a container entry that has no image field
contributes the empty string. Nothing filters it: a call of `saveOneImage` with the
empty string fails when it parses it, before any transfer, whatever the registry does;
in a run of `SaveImages` such a call is the last call and the empty string is not
recorded as saved; and every run of `SaveImages` over a tree in which the scan finds
the empty string returns an error. -/
theorem listImagesInFile_returns_image_fields (unmarshal : Unmarshal) :
    (∀ contents image, image ∈ listImagesInFile unmarshal contents ↔
      ∃ doc ∈ bytesSplit contents yamlDelimiter, ∃ parsed, unmarshal doc = .ok parsed ∧
        ∃ container ∈ parsed.Spec.Template.Spec.Containers, container.Image = image) ∧
    (∀ (world : SaveWorld) (before : List Str) (imagesDir : Str),
      saveOneImage world before imagesDir [] = .error "failed to parse image ref") ∧
    (∀ (world : SaveWorld) (imagesDir : Str) (upstreamDir : List ManifestEntry),
      [] ∈ scannedImages unmarshal upstreamDir →
        (SaveImages unmarshal world imagesDir upstreamDir).1 ≠ none) ∧
    (∀ (world : SaveWorld) (imagesDir : Str) (upstreamDir : List ManifestEntry),
      [] ∈ (SaveImages unmarshal world imagesDir upstreamDir).2.calls →
        (∃ pre, (SaveImages unmarshal world imagesDir upstreamDir).2.calls = pre ++ [[]]) ∧
          [] ∉ (SaveImages unmarshal world imagesDir upstreamDir).2.savedImages) := by
  have hnotinv : ∀ (world : SaveWorld) (imagesDir : Str) (calls : List Str),
      [] ∈ calls → ¬ AllSaved world imagesDir calls := by
    intro world imagesDir calls hmem hall
    obtain ⟨pre, post, hcalls⟩ := List.append_of_mem hmem
    have := hall pre [] post hcalls
    rw [saveOneImage_empty] at this
    cases this
  refine ⟨?_, saveOneImage_empty, ?_, ?_⟩
  rotate_left 2
  · intro world imagesDir upstreamDir hcall
    have hspec := SaveImages_spec unmarshal world imagesDir upstreamDir
    have hfailed : SaveFailed world imagesDir
        (SaveImages unmarshal world imagesDir upstreamDir).2 := by
      by_cases hres : (SaveImages unmarshal world imagesDir upstreamDir).1 = none
      · exact absurd (hspec.1 hres).1.allSaved (hnotinv world imagesDir _ hcall)
      · rcases hspec.2 hres with hinv | hf
        · exact absurd hinv.allSaved (hnotinv world imagesDir _ hcall)
        · exact hf
    obtain ⟨pre, image, hc, hall, _, hsaved, _⟩ := hfailed
    have hpre : [] ∉ pre := fun h => hnotinv world imagesDir pre h hall
    rw [hc] at hcall
    have himage : image = [] := by
      rcases List.mem_append.1 hcall with h | h
      · exact absurd h hpre
      · exact (List.mem_singleton.1 h).symm
    subst himage
    exact ⟨⟨pre, hc⟩, fun h => hpre ((hsaved []).1 h)⟩
  · intro contents image
    rw [listImagesInFile_eq]
    simp only [List.mem_flatten, List.mem_map, exists_exists_and_eq_and]
    constructor
    · rintro ⟨doc, hdoc, himage⟩
      refine ⟨doc, hdoc, ?_⟩
      unfold imagesOfDoc at himage
      cases hu : unmarshal doc with
      | error err =>
        rw [hu] at himage
        simp at himage
      | ok parsed =>
        rw [hu] at himage
        simp only [List.mem_map] at himage
        exact ⟨parsed, rfl, himage⟩
    · rintro ⟨doc, hdoc, parsed, hu, container, hc, himage⟩
      refine ⟨doc, hdoc, ?_⟩
      unfold imagesOfDoc
      rw [hu]
      simp only [List.mem_map]
      exact ⟨container, hc, himage⟩
  · intro world imagesDir upstreamDir hscan hres
    obtain ⟨hinv, hmem⟩ := (SaveImages_spec unmarshal world imagesDir upstreamDir).1 hres
    obtain ⟨pre, post, hcalls⟩ := List.append_of_mem ((hmem []).2 hscan)
    have := hinv.allSaved pre [] post hcalls
    rw [saveOneImage_empty] at this
    cases this

theorem listImagesInFile_returns_image_fields_witness :
    (SaveImages manifestUnmarshal pullSucceeds "/images".toList
      [.file (.ok noImageManifest)]).1 ≠ none :=
  (listImagesInFile_returns_image_fields manifestUnmarshal).2.2.1 pullSucceeds
    "/images".toList [.file (.ok noImageManifest)] (by decide)

end Kots
